import Mathlib

/-!
# rnsg-qp-coeffs: a verification development for `h.cpp`

`h.cpp` evaluates `h_{n, d(n) - k}` by a nested powerset search.  This file embeds the
functions of `h.cpp` as Lean definitions and proves properties of them.

Conventions of the embedding:

* `std::set<int>` (`SI`) is a list of integers in iteration order (strictly ascending);
  `setInsert` is `std::set::insert`.
* `/` and `%` on `int` are the truncating `Int.tdiv` and `Int.tmod`.
* The `int` arithmetic on the command-line values is 32-bit: the validation bound of `main`
  and `p(k, b)` reduce every result by `wrap32` (two's complement wrap-around).
* Inside the enumeration `int`, `size_t` and the `ulli` accumulator are unbounded integers:
  that arithmetic is exact.
* `vector<int>` pairs (`P`) with their two entries are products `Int × Int`.
* The mask `1 << c` of `generateSubset` is a 32-bit value too: it is `2 ^ c` only while that
  fits in an `int`.  `binom32` is `binom` with every result reduced by `wrap32`.
* Dereferencing `begin()` of an empty set has no value: `updateCount` yields `none` there.
-/

namespace Rnsg

/-! ## Data model -/

/-- The type `SI` of `h.cpp`, `std::set<int>`, as the list of its elements in iteration order. -/
abbrev SI := List Int

/-- The type `P` of `h.cpp`: a `vector<int>` holding the two members of a pair. -/
abbrev P := Int × Int

/-- Insertion `S.insert(x)` of `std::set<int>`: the element goes to its place in the ascending
order, and a value already present is not inserted again. -/
def setInsert (x : Int) : SI → SI
  | [] => [x]
  | y :: ys =>
    if x < y then x :: y :: ys
    else if x = y then y :: ys
    else y :: setInsert x ys

/-- The iteration order of a `std::set<int>`: strictly ascending. -/
def IsSet (S : SI) : Prop := S.Pairwise (· < ·)

instance (S : SI) : Decidable (IsSet S) := by
  unfold IsSet; infer_instance

/-! ## Subset codec -/

/-- The value an `int` holds for the exact result `x` of an operation: `x` reduced to 32 bits
in two's complement. -/
def wrap32 (x : Int) : Int := (x + 2 ^ 31) % 2 ^ 32 - 2 ^ 31

/-- Conversion of an `int` to the 64-bit `ulli`: the value modulo `2 ^ 64`. -/
def toUlli (x : Int) : Nat := (x % 2 ^ 64).toNat

/-- The operand `1 << c` of the `&` in `generateSubset`: the shift is made in `int`, and the
`int` is converted to `ulli` to meet the code `b`.  It is `2 ^ c` for `c < 31`, the
sign-extended `2 ^ 64 - 2 ^ 31` for `c = 31`, and `0` from `c = 32` on, where no bit of the
shifted `1` is left in the `int`. -/
def shiftMask (c : Nat) : Nat := toUlli (wrap32 (2 ^ c))

/-- The loop of `generateSubset`: `c` counts the elements visited so far, and the element at
position `c` is inserted when `(b & (1 << c)) >> c` is non-zero. -/
def generateSubsetLoop (b : Nat) : List Int → Nat → SI → SI
  | [], _, result => result
  | x :: xs, c, result =>
    generateSubsetLoop b xs (c + 1)
      (if (b &&& shiftMask c) >>> c ≠ 0 then setInsert x result else result)

/-- The function `generateSubset(S, b, result)`; the value is `result` after the call. -/
def generateSubset (S : SI) (b : Nat) (result : SI) : SI :=
  generateSubsetLoop b S 0 result

/-! ## Combinatorial primitives -/

/-- The function `p(k, b)`: lower bound on `I`.  `-2 * k - 1 + b` is evaluated in `int`. -/
def p (k b : Int) : Int := wrap32 (wrap32 (wrap32 (-2 * k) - 1) + b)

/-- The state of `result` in `binom` after the loop steps `i = 2, ..., j` (the loop
`for (int i = 2; i <= k; ++i) { result *= (n - i + 1); result /= i; }` started at
`result = n`). -/
def binomLoop (n : Int) (j : Nat) : Int :=
  (List.range' 2 (j - 1)).foldl (fun result (i : Nat) => (result * (n - i + 1)).tdiv i) n

/-- The function `binom(n, k)`. -/
def binom (n k : Int) : Int :=
  if k > n then 0
  else
    let k := if k * 2 > n then n - k else k
    if k = 0 then 1
    else binomLoop n k.toNat

/-- The loop of `binom` with `result` and every intermediate value held in a 32-bit `int`:
the state of `result` after the steps `i = 2, ..., j`. -/
def binomLoop32 (n : Int) (j : Nat) : Int :=
  (List.range' 2 (j - 1)).foldl
    (fun result (i : Nat) => (wrap32 (result * wrap32 (wrap32 (n - i) + 1))).tdiv i) n

/-- The function `binom(n, k)` with its arithmetic in 32-bit `int` with wrap-around. -/
def binom32 (n k : Int) : Int :=
  if k > n then 0
  else
    let k := if wrap32 (k * 2) > n then wrap32 (n - k) else k
    if k = 0 then 1
    else binomLoop32 n k.toNat

/-- The function `in(x, S)`. -/
def inSet (x : Int) (S : SI) : Bool := decide (x ∈ S)

/-- The function `d(n)`. -/
def d (n : Int) : Int := (n - 1).tdiv 2 - n.tdiv 3

/-! ## Hitting-set validator, ranges -/

/-- The function `isValidFixation(pairs, fixation)`: the loop returns `false` at the first pair
that has neither member in `fixation`. -/
def isValidFixation : List P → SI → Bool
  | [], _ => true
  | pr :: rest, fixation =>
    if !inSet pr.1 fixation && !inSet pr.2 fixation then false
    else isValidFixation rest fixation

/-- The function `generateRemovingRange(b, m, result)`: inserts `i = 1, ..., b - 2 * m`. -/
def generateRemovingRange (b m : Int) (result : SI) : SI :=
  (List.range (b - 2 * m).toNat).foldl (fun r (j : Nat) => setInsert ((j : Int) + 1) r) result

/-- The function `setMinus(A, B, result)`. -/
def setMinus (A B : SI) (result : SI) : SI :=
  A.foldl (fun r x => if !inSet x B then setInsert x r else r) result

/-! ## `updateCount` -/

/-- The first loop of `updateCount`, which builds `R`: for every `a` of `I` in iteration order
it inserts `b - 2a`, then `(b - a) / 2` when `b - a` is even, then `b - a - a'` for every later
element `a'`. -/
def exclusionLoop (b : Int) : List Int → SI → SI
  | [], R => R
  | a :: rest, R =>
    let R1 := setInsert (b - 2 * a) R
    let R2 := if (b - a).tmod 2 = 0 then setInsert ((b - a).tdiv 2) R1 else R1
    let R3 := rest.foldl (fun r a' => setInsert (b - a - a') r) R2
    exclusionLoop b rest R3

/-- The exclusion set `R` of `updateCount`, built from the empty set. -/
def exclusionSet (I : SI) (b : Int) : SI := exclusionLoop b I []

/-- The inner loop `for (int x = 1; x < b - a - x; x++)` of the pair construction, appending to
`pairs`.  The first argument bounds the number of steps. -/
def pairsInner (b a : Int) (R : SI) : Nat → Int → List P → List P
  | 0, _, pairs => pairs
  | fuel + 1, x, pairs =>
    if x < b - a - x then
      pairsInner b a R fuel (x + 1)
        (if !(inSet x R || inSet (b - a - x) R) then pairs ++ [(x, b - a - x)] else pairs)
    else pairs

/-- The loop of `updateCount` that creates `P(I, R)`: for every `a` of `I` the inner loop runs
with `x` from `1`; it makes fewer than `b - a` steps. -/
def pairList (I : SI) (b : Int) (R : SI) : List P :=
  I.foldl (fun pairs a => pairsInner b a R (b - a).toNat 1 pairs) []

/-- The body of the loop over `b1` in `updateCount`; the value is the new `count`. -/
def fixationStep (R_c : SI) (pairs : List P) (l n k : Int) (xnSize : Nat)
    (count : Int) (b1 : Nat) : Int :=
  let subset := generateSubset R_c b1 []
  let l_ : Int := l + subset.length
  if l_ ≤ k && isValidFixation pairs subset then
    count + binom (d n - xnSize) (k - l_)
  else count

/-- The function `updateCount(I, b, n, k, count)`; the result is the new value of `count`.
`*(I.begin())` has no value when `I` is empty. -/
def updateCount (I : SI) (b n k : Int) (count : Int) : Option Int :=
  let R := exclusionSet I b
  let l : Int := (R.length : Int) - I.length
  if l > k then some count
  else
    let pairs := pairList I b R
    match I.head? with
    | none => none
    | some m =>
      let xn := generateRemovingRange b m []
      let R_c := setMinus xn R []
      some ((List.range (2 ^ R_c.length)).foldl (fixationStep R_c pairs l n k xn.length) count)

/-- The function `updateCount` with the pruning check `if (l > k) return;` taken out; every
other statement is the one of `updateCount`. -/
def updateCountNoPrune (I : SI) (b n k : Int) (count : Int) : Option Int :=
  let R := exclusionSet I b
  let l : Int := (R.length : Int) - I.length
  let pairs := pairList I b R
  match I.head? with
  | none => none
  | some m =>
    let xn := generateRemovingRange b m []
    let R_c := setMinus xn R []
    some ((List.range (2 ^ R_c.length)).foldl (fixationStep R_c pairs l n k xn.length) count)

/-! ## The driver -/

/-- What a run of `main` does. -/
inductive Outcome
  /-- Fewer than two arguments: message, `return 1` before anything is computed. -/
  | usage
  /-- Validation failed: message naming the bound, `return 1` before the enumeration. -/
  | rejected (bound : Int)
  /-- The enumeration ran to its end: the count is printed, `return 0`. -/
  | finished (count : Int)
  /-- The enumeration was started and reached an operation without defined behaviour. -/
  | undefined
  deriving DecidableEq

/-- The exit code of a run, when it has one. -/
def Outcome.exitCode : Outcome → Option Int
  | .usage => some 1
  | .rejected _ => some 1
  | .finished _ => some 0
  | .undefined => none

/-- Whether the run entered the enumeration (the loops after the validation). -/
def Outcome.enumerated : Outcome → Bool
  | .usage => false
  | .rejected _ => false
  | .finished _ => true
  | .undefined => true

/-- The set `insertingRange` of `main`: the loop
`for (int i = 0 - (n % 3 == 0); i >= p(k, b); i--)` inserts `i`; it makes
`start - p(k, b) + 1` steps when that is positive and none otherwise. -/
def insertingRange (n k : Int) : SI :=
  let b := n.tmod 3
  let start : Int := 0 - (if n.tmod 3 = 0 then 1 else 0)
  (List.range (start - p k b + 1).toNat).foldl (fun r (j : Nat) => setInsert (start - j) r) []

/-- The body of the loop over `b1` in `main`. -/
def driverStep (range : SI) (b n k : Int) (count : Int) (b1 : Nat) : Option Int :=
  updateCount (generateSubset range b1 []) b n k count

/-- The enumeration of `main` after the validation: the final value of `count`.  When
`p(k, b)` is the least `int`, the condition `i >= p(k, b)` of the loop that fills
`insertingRange` holds for every `int` and `i--` passes the least `int`, which has no defined
behaviour. -/
def enumerate (n k : Int) : Option Int :=
  let b := n.tmod 3
  if p k b = -2 ^ 31 then none
  else
    let range := insertingRange n k
    (List.range (2 ^ range.length)).foldlM (driverStep range b n k) 0

/-- The function `main`.  `args` holds the values `atoi(argv[1])`, `atoi(argv[2])`, ... of the
command-line arguments, so that `argc = args.length + 1`.  The bound `24 * k + 12 - 8 * b` is
evaluated in `int`. -/
def main (args : List Int) : Outcome :=
  match args with
  | n :: k :: _ =>
    let b := n.tmod 3
    let bound := wrap32 (wrap32 (wrap32 (24 * k) + 12) - wrap32 (8 * b))
    if n ≤ bound then .rejected bound
    else
      match enumerate n k with
      | none => .undefined
      | some count => .finished count
  | _ => .usage

/-! ## Definitions used to state the properties -/

/-- The elements of a list selected by the bits `c, c + 1, ...` of `b`. -/
def selectBits (b : Nat) : List Int → Nat → List Int
  | [], _ => []
  | x :: xs, c => if b.testBit c then x :: selectBits b xs (c + 1) else selectBits b xs (c + 1)

/-- The code whose bit `i` is set exactly when the `i`-th element of the list lies in `T`. -/
def encodeSubset : List Int → List Int → Nat
  | [], _ => 0
  | x :: xs, T => (if x ∈ T then 1 else 0) + 2 * encodeSubset xs T

/-- Membership in one of the three families generated from `I` and `b`. -/
def InFamilies (I : SI) (b r : Int) : Prop :=
  (∃ a ∈ I, r = b - 2 * a) ∨
  (∃ a ∈ I, 2 ∣ (b - a) ∧ r = (b - a) / 2) ∨
  (∃ a ∈ I, ∃ a' ∈ I, a < a' ∧ r = b - a - a')

/-- The order of the pair list: ascending `a = b - x - y`, and ascending `x` for equal `a`. -/
def PairOrder (b : Int) (q1 q2 : P) : Prop :=
  b - q1.1 - q1.2 < b - q2.1 - q2.2 ∨ (b - q1.1 - q1.2 = b - q2.1 - q2.2 ∧ q1.1 < q2.1)

/-- What one candidate fixation adds to the count. -/
def fixationTerm (pairs : List P) (l n k : Int) (xnSize : Nat) (subset : SI) : Int :=
  if l + subset.length ≤ k ∧ isValidFixation pairs subset = true then
    binom (d n - xnSize) (k - (l + subset.length))
  else 0

/-! ## Ordered sets -/

theorem mem_setInsert (x y : Int) (S : SI) : y ∈ setInsert x S ↔ y = x ∨ y ∈ S := by
  induction S with
  | nil => simp [setInsert]
  | cons z zs ih =>
    unfold setInsert
    split_ifs with h1 h2
    · simp
    · subst h2; simp
    · simp only [List.mem_cons, ih]; tauto

theorem setInsert_isSet (x : Int) (S : SI) (h : IsSet S) : IsSet (setInsert x S) := by
  unfold IsSet at *
  induction S with
  | nil => simp [setInsert]
  | cons z zs ih =>
    unfold setInsert
    split_ifs with h1 h2
    · rw [List.pairwise_cons] at h ⊢
      refine ⟨?_, List.pairwise_cons.2 h⟩
      intro w hw
      rcases List.mem_cons.1 hw with rfl | hw
      · exact h1
      · exact lt_trans h1 (h.1 w hw)
    · exact h
    · rw [List.pairwise_cons] at h ⊢
      refine ⟨?_, ih h.2⟩
      intro w hw
      rcases (mem_setInsert x w zs).1 hw with rfl | hw
      · omega
      · exact h.1 w hw

theorem setInsert_append_of_lt (x : Int) (S : SI) (h : ∀ y ∈ S, y < x) :
    setInsert x S = S ++ [x] := by
  induction S with
  | nil => rfl
  | cons z zs ih =>
    have hz : z < x := h z (List.mem_cons_self _ _)
    unfold setInsert
    rw [if_neg (by omega), if_neg (by omega), ih (fun y hy => h y (List.mem_cons_of_mem _ hy))]
    rfl

theorem isSet_nodup {S : SI} (h : IsSet S) : S.Nodup :=
  List.Pairwise.imp (fun hab => ne_of_lt hab) h

theorem isSet_ext {S T : SI} (hS : IsSet S) (hT : IsSet T) (h : ∀ x, x ∈ S ↔ x ∈ T) : S = T :=
  List.eq_of_perm_of_sorted ((List.perm_ext_iff_of_nodup (isSet_nodup hS) (isSet_nodup hT)).2 h)
    (List.Pairwise.imp le_of_lt hS) (List.Pairwise.imp le_of_lt hT)

theorem mem_inSet (x : Int) (S : SI) : inSet x S = true ↔ x ∈ S := by
  simp [inSet]

/-! ## Subset codec -/

theorem shiftMask_of_lt (c : Nat) (hc : c < 31) : shiftMask c = 2 ^ c := by
  interval_cases c <;> rfl

theorem bit_test (b c : Nat) (hc : c < 31) :
    ((b &&& shiftMask c) >>> c ≠ 0) ↔ b.testBit c = true := by
  rw [shiftMask_of_lt c hc, Nat.and_two_pow, Nat.shiftRight_eq_div_pow,
    Nat.mul_div_cancel _ (by positivity)]
  cases b.testBit c <;> simp

theorem selectBits_sublist (b : Nat) (xs : List Int) (c : Nat) :
    (selectBits b xs c).Sublist xs := by
  induction xs generalizing c with
  | nil => simp [selectBits]
  | cons x xs ih =>
    unfold selectBits
    split_ifs
    · exact (ih _).cons₂ _
    · exact (ih _).cons _

theorem mem_selectBits (b : Nat) (xs : List Int) (c : Nat) (x : Int) :
    x ∈ selectBits b xs c ↔ ∃ i, xs[i]? = some x ∧ b.testBit (c + i) = true := by
  induction xs generalizing c with
  | nil => simp [selectBits]
  | cons y ys ih =>
    unfold selectBits
    constructor
    · intro h
      split_ifs at h with hb
      · rcases List.mem_cons.1 h with rfl | h
        · exact ⟨0, by simp, by simpa using hb⟩
        · obtain ⟨i, hi, hbit⟩ := (ih _).1 h
          exact ⟨i + 1, by simpa using hi, by rw [← hbit]; congr 1; omega⟩
      · obtain ⟨i, hi, hbit⟩ := (ih _).1 h
        exact ⟨i + 1, by simpa using hi, by rw [← hbit]; congr 1; omega⟩
    · rintro ⟨i, hi, hbit⟩
      cases i with
      | zero =>
        simp at hi hbit
        subst hi
        simp [hbit]
      | succ i =>
        have : x ∈ selectBits b ys (c + 1) :=
          (ih _).2 ⟨i, by simpa using hi, by rw [← hbit]; congr 1; omega⟩
        split_ifs
        · exact List.mem_cons_of_mem _ this
        · exact this

theorem generateSubsetLoop_eq (b : Nat) (xs : List Int) (c : Nat) (result : SI)
    (hlen : c + xs.length ≤ 31) (hxs : IsSet xs) (hres : ∀ y ∈ result, ∀ x ∈ xs, y < x) :
    generateSubsetLoop b xs c result = result ++ selectBits b xs c := by
  induction xs generalizing c result with
  | nil => simp [generateSubsetLoop, selectBits]
  | cons x xs ih =>
    have hc : c < 31 := by simp at hlen; omega
    have hxs' : IsSet xs := (List.pairwise_cons.1 hxs).2
    have hx : ∀ z ∈ xs, x < z := (List.pairwise_cons.1 hxs).1
    unfold generateSubsetLoop selectBits
    by_cases hb : b.testBit c = true
    · rw [if_pos ((bit_test b c hc).2 hb), if_pos hb,
        setInsert_append_of_lt x result (fun y hy => hres y hy x (List.mem_cons_self _ _)),
        ih (c + 1) _ (by simp at hlen ⊢; omega) hxs']
      · simp
      · intro y hy z hz
        rcases List.mem_append.1 hy with hy | hy
        · exact hres y hy z (List.mem_cons_of_mem _ hz)
        · simp at hy; subst hy; exact hx z hz
    · rw [if_neg (fun h => hb ((bit_test b c hc).1 h)), if_neg hb,
        ih (c + 1) _ (by simp at hlen ⊢; omega) hxs'
          (fun y hy z hz => hres y hy z (List.mem_cons_of_mem _ hz))]

theorem generateSubset_eq (S : SI) (b : Nat) (hlen : S.length ≤ 31) (hS : IsSet S) :
    generateSubset S b [] = selectBits b S 0 := by
  unfold generateSubset
  rw [generateSubsetLoop_eq b S 0 [] (by omega) hS (by simp)]
  simp

theorem generateSubsetLoop_zero (xs : List Int) (c : Nat) (result : SI) :
    generateSubsetLoop 0 xs c result = result := by
  induction xs generalizing c with
  | nil => rfl
  | cons x xs ih =>
    unfold generateSubsetLoop
    rw [Nat.zero_and, Nat.zero_shiftRight, if_neg (by simp), ih]

theorem generateSubsetLoop_isSet (b : Nat) (xs : List Int) (c : Nat) (result : SI)
    (h : IsSet result) : IsSet (generateSubsetLoop b xs c result) := by
  induction xs generalizing c result with
  | nil => exact h
  | cons x xs ih =>
    unfold generateSubsetLoop
    apply ih
    split_ifs
    · exact setInsert_isSet _ _ h
    · exact h

theorem selectBits_isSet (b : Nat) (S : SI) (c : Nat) (hS : IsSet S) :
    IsSet (selectBits b S c) :=
  List.Pairwise.sublist (selectBits_sublist b S c) hS

theorem selectBits_succ (b : Nat) (xs : List Int) (c : Nat) :
    selectBits b xs (c + 1) = selectBits (b / 2) xs c := by
  induction xs generalizing c with
  | nil => simp [selectBits]
  | cons x xs ih =>
    unfold selectBits
    rw [ih (c + 1), Nat.testBit_succ]

theorem selectBits_inj (b1 b2 : Nat) (xs : List Int) (c : Nat) (hxs : xs.Nodup)
    (h : selectBits b1 xs c = selectBits b2 xs c) :
    ∀ i, i < xs.length → b1.testBit (c + i) = b2.testBit (c + i) := by
  induction xs generalizing c with
  | nil => intro i hi; simp at hi
  | cons x xs ih =>
    have hx : x ∉ xs := (List.nodup_cons.1 hxs).1
    have hxs' : xs.Nodup := (List.nodup_cons.1 hxs).2
    have hnot : ∀ b' : Nat, x ∉ selectBits b' xs (c + 1) :=
      fun b' hmem => hx ((selectBits_sublist b' xs (c + 1)).subset hmem)
    unfold selectBits at h
    have key : b1.testBit c = b2.testBit c ∧
        selectBits b1 xs (c + 1) = selectBits b2 xs (c + 1) := by
      by_cases h1 : b1.testBit c = true <;> by_cases h2 : b2.testBit c = true
      · rw [if_pos h1, if_pos h2] at h
        exact ⟨by rw [h1, h2], (List.cons.inj h).2⟩
      · rw [if_pos h1, if_neg h2] at h
        exact absurd (h ▸ List.mem_cons_self _ _) (hnot b2)
      · rw [if_neg h1, if_pos h2] at h
        exact absurd (h ▸ List.mem_cons_self _ _) (hnot b1)
      · rw [if_neg h1, if_neg h2] at h
        simp only [Bool.not_eq_true] at h1 h2
        exact ⟨by rw [h1, h2], h⟩
    intro i hi
    cases i with
    | zero => simpa using key.1
    | succ i =>
      have := ih (c + 1) hxs' key.2 i (by simpa using hi)
      rw [show c + (i + 1) = c + 1 + i by omega]
      exact this

theorem eq_of_selectBits_eq (b1 b2 : Nat) (S : SI) (hS : IsSet S)
    (h1 : b1 < 2 ^ S.length) (h2 : b2 < 2 ^ S.length)
    (h : selectBits b1 S 0 = selectBits b2 S 0) : b1 = b2 := by
  apply Nat.eq_of_testBit_eq
  intro i
  by_cases hi : i < S.length
  · simpa using selectBits_inj b1 b2 S 0 (isSet_nodup hS) h i hi
  · have hpow : 2 ^ S.length ≤ 2 ^ i := Nat.pow_le_pow_right (by norm_num) (by omega)
    rw [Nat.testBit_lt_two_pow (lt_of_lt_of_le h1 hpow),
      Nat.testBit_lt_two_pow (lt_of_lt_of_le h2 hpow)]

theorem encodeSubset_lt (S T : List Int) : encodeSubset S T < 2 ^ S.length := by
  induction S with
  | nil => simp [encodeSubset]
  | cons x xs ih =>
    unfold encodeSubset
    rw [List.length_cons, pow_succ]
    split_ifs <;> omega

theorem selectBits_encodeSubset (S T : List Int) :
    selectBits (encodeSubset S T) S 0 = S.filter (fun x => decide (x ∈ T)) := by
  induction S with
  | nil => simp [selectBits]
  | cons x xs ih =>
    unfold selectBits
    rw [selectBits_succ]
    by_cases hx : x ∈ T
    · have h1 : encodeSubset (x :: xs) T = 1 + 2 * encodeSubset xs T := by
        simp [encodeSubset, hx]
      have hb : (encodeSubset (x :: xs) T).testBit 0 = true := by
        rw [h1, Nat.testBit_zero]; simp
      have hd : encodeSubset (x :: xs) T / 2 = encodeSubset xs T := by rw [h1]; omega
      rw [if_pos hb, hd, ih, List.filter_cons_of_pos (by simpa using hx)]
    · have h1 : encodeSubset (x :: xs) T = 2 * encodeSubset xs T := by
        simp [encodeSubset, hx]
      have hb : ¬ (encodeSubset (x :: xs) T).testBit 0 = true := by
        rw [h1, Nat.testBit_zero]; simp
      have hd : encodeSubset (x :: xs) T / 2 = encodeSubset xs T := by rw [h1]; omega
      rw [if_neg hb, hd, ih, List.filter_cons_of_neg (by simpa using hx)]

theorem selectBits_encodeSubset_eq (S T : SI) (hS : IsSet S) (hT : IsSet T)
    (hsub : ∀ x ∈ T, x ∈ S) : selectBits (encodeSubset S T) S 0 = T := by
  rw [selectBits_encodeSubset]
  apply isSet_ext (List.Pairwise.sublist (List.filter_sublist _) hS) hT
  intro x
  simp only [List.mem_filter, decide_eq_true_eq]
  exact ⟨fun h => h.2, fun h => ⟨hsub x h, h⟩⟩

/-- C3: for an ordered set `S` of at most 31 elements and a code below `2 ^ |S|`,
`generateSubset(S, code, result)` called with an empty `result` returns the set of the elements
`s_i` of `S` (position `i` in iteration order) for which bit `i` of `code` is 1. -/
theorem generateSubset_decodes (S : SI) (code : Nat) (hS : IsSet S) (hlen : S.length ≤ 31)
    (_hcode : code < 2 ^ S.length) :
    IsSet (generateSubset S code []) ∧
      ∀ x, x ∈ generateSubset S code [] ↔ ∃ i, S[i]? = some x ∧ code.testBit i = true := by
  rw [generateSubset_eq S code hlen hS]
  refine ⟨selectBits_isSet code S 0 hS, ?_⟩
  intro x
  rw [mem_selectBits]
  simp

theorem generateSubset_decodes_witness :
    (IsSet [2, 5, 9] ∧ [2, 5, 9].length ≤ 31 ∧ 5 < 2 ^ [2, 5, 9].length) ∧
    generateSubset [2, 5, 9] 5 [] = [2, 9] ∧
    (IsSet (generateSubset [2, 5, 9] 5 []) ∧
      ∀ x, x ∈ generateSubset [2, 5, 9] 5 [] ↔
        ∃ i, ([2, 5, 9] : SI)[i]? = some x ∧ (5 : Nat).testBit i = true) :=
  ⟨by decide, by decide, generateSubset_decodes [2, 5, 9] 5 (by decide) (by decide) (by decide)⟩

/-- C4: for a set `S` of `m ≤ 31` elements, `code ↦ generateSubset(S, code)` on the codes
`0 .. 2^m - 1` is a bijection onto the powerset of `S`: every code gives a subset of `S`, two
codes with the same subset are equal, and every subset of `S` is the image of a code in range. -/
theorem generateSubset_bijective (S : SI) (hS : IsSet S) (hlen : S.length ≤ 31) :
    (∀ code, code < 2 ^ S.length →
      IsSet (generateSubset S code []) ∧ ∀ x ∈ generateSubset S code [], x ∈ S) ∧
    (∀ c1 c2, c1 < 2 ^ S.length → c2 < 2 ^ S.length →
      generateSubset S c1 [] = generateSubset S c2 [] → c1 = c2) ∧
    (∀ T : SI, IsSet T → (∀ x ∈ T, x ∈ S) →
      ∃ code, code < 2 ^ S.length ∧ generateSubset S code [] = T) := by
  refine ⟨?_, ?_, ?_⟩
  · intro code _
    rw [generateSubset_eq S code hlen hS]
    exact ⟨selectBits_isSet code S 0 hS, fun x hx => (selectBits_sublist code S 0).subset hx⟩
  · intro c1 c2 h1 h2 h
    rw [generateSubset_eq S c1 hlen hS, generateSubset_eq S c2 hlen hS] at h
    exact eq_of_selectBits_eq c1 c2 S hS h1 h2 h
  · intro T hT hsub
    refine ⟨encodeSubset S T, encodeSubset_lt S T, ?_⟩
    rw [generateSubset_eq S _ hlen hS, selectBits_encodeSubset_eq S T hS hT hsub]

theorem generateSubset_bijective_witness :
    (IsSet [2, 5, 9] ∧ [2, 5, 9].length ≤ 31) ∧
    ((∀ code, code < 2 ^ [2, 5, 9].length →
      IsSet (generateSubset [2, 5, 9] code []) ∧
        ∀ x ∈ generateSubset [2, 5, 9] code [], x ∈ [2, 5, 9]) ∧
    (∀ c1 c2, c1 < 2 ^ [2, 5, 9].length → c2 < 2 ^ [2, 5, 9].length →
      generateSubset [2, 5, 9] c1 [] = generateSubset [2, 5, 9] c2 [] → c1 = c2) ∧
    (∀ T : SI, IsSet T → (∀ x ∈ T, x ∈ [2, 5, 9]) →
      ∃ code, code < 2 ^ [2, 5, 9].length ∧ generateSubset [2, 5, 9] code [] = T)) :=
  ⟨by decide, generateSubset_bijective [2, 5, 9] (by decide) (by decide)⟩

/-! ## `binom` -/

theorem binomLoop_one (n : Int) : binomLoop n 1 = n := by
  simp [binomLoop]

theorem binomLoop_succ (n : Int) (j : Nat) (hj : 1 ≤ j) :
    binomLoop n (j + 1) = (binomLoop n j * (n - ((j + 1 : Nat) : Int) + 1)).tdiv ((j + 1 : Nat) : Int) := by
  obtain ⟨m, rfl⟩ : ∃ m, j = m + 1 := ⟨j - 1, by omega⟩
  unfold binomLoop
  rw [show m + 1 + 1 - 1 = m + 1 by omega, show m + 1 - 1 = m by omega, List.range'_concat,
    List.foldl_append]
  simp only [List.foldl_cons, List.foldl_nil, one_mul]
  rw [show 2 + m = m + 1 + 1 by omega]

theorem binomLoop_step_exact (n j : Nat) (hj : j + 1 ≤ n) :
    ((n.choose j : Nat) : Int) * ((n : Int) - ((j + 1 : Nat) : Int) + 1) =
      ((n.choose (j + 1) : Nat) : Int) * ((j + 1 : Nat) : Int) := by
  have h := Nat.choose_succ_right_eq n j
  have hsub : ((n - j : Nat) : Int) = (n : Int) - j := by omega
  have : ((n.choose (j + 1) * (j + 1) : Nat) : Int) = ((n.choose j * (n - j) : Nat) : Int) := by
    rw [h]
  push_cast at this ⊢
  rw [hsub] at this
  linarith

theorem binomLoop_eq_choose (n j : Nat) (h1 : 1 ≤ j) (hn : j ≤ n) :
    binomLoop n j = ((n.choose j : Nat) : Int) := by
  induction j with
  | zero => omega
  | succ j ih =>
    by_cases hj : j = 0
    · subst hj; simp [binomLoop_one]
    · rw [binomLoop_succ n j (by omega), ih (by omega) (by omega), binomLoop_step_exact n j hn]
      exact Int.mul_tdiv_cancel _ (by positivity)

theorem binom_eq_choose (n k : Nat) : binom n k = ((n.choose k : Nat) : Int) := by
  unfold binom
  by_cases hkn : (k : Int) > n
  · rw [if_pos hkn, Nat.choose_eq_zero_of_lt (by omega)]; rfl
  · rw [if_neg hkn]
    have hle : k ≤ n := by omega
    by_cases h2 : (k : Int) * 2 > n
    · simp only [h2, if_true]
      by_cases h0 : (n : Int) - k = 0
      · rw [if_pos h0]
        have : k = n := by omega
        subst this; simp
      · rw [if_neg h0]
        have ht : ((n : Int) - k).toNat = n - k := by omega
        rw [ht, binomLoop_eq_choose n (n - k) (by omega) (by omega), Nat.choose_symm hle]
    · simp only [h2, if_false]
      by_cases h0 : (k : Int) = 0
      · rw [if_pos h0]
        have : k = 0 := by omega
        subst this; simp
      · rw [if_neg h0]
        rw [Int.toNat_ofNat, binomLoop_eq_choose n k (by omega) hle]

theorem binom_nonneg (n k : Int) (hk : 0 ≤ k) : 0 ≤ binom n k := by
  by_cases hkn : k > n
  · simp [binom, hkn]
  · obtain ⟨k', rfl⟩ := Int.eq_ofNat_of_zero_le hk
    obtain ⟨n', rfl⟩ := Int.eq_ofNat_of_zero_le (show (0 : Int) ≤ n by omega)
    rw [binom_eq_choose]
    positivity

/-- C2: over exact integers, `binom(n, k)` is the binomial coefficient `C(n, k)` for all natural
`n`, `k`: it is 0 when `k > n` and 1 when `k = 0`; the loop starts from `result = n = C(n, 1)`,
and for every step `i` with `2 ≤ i ≤ n` (the loop stops at `min(k, n - k) ≤ n`) the product
`result * (n - i + 1)` is divisible by `i` and the result after the step is `C(n, i)`.
`binom(5,2) = 10`, `binom(6,3) = 20`, `binom(0,0) = 1`, `binom(4,5) = 0`. -/
theorem binom_spec :
    (∀ n k : Nat, binom n k = ((n.choose k : Nat) : Int)) ∧
    (∀ n k : Nat, n < k → binom n k = 0) ∧
    (∀ n : Nat, binom n 0 = 1) ∧
    (∀ n : Nat, binomLoop n 1 = ((n.choose 1 : Nat) : Int)) ∧
    (∀ n i : Nat, 2 ≤ i → i ≤ n →
      ((i : Nat) : Int) ∣ binomLoop n (i - 1) * ((n : Int) - i + 1) ∧
      binomLoop n i = (binomLoop n (i - 1) * ((n : Int) - i + 1)).tdiv i ∧
      binomLoop n i = ((n.choose i : Nat) : Int)) ∧
    binom 5 2 = 10 ∧ binom 6 3 = 20 ∧ binom 0 0 = 1 ∧ binom 4 5 = 0 := by
  refine ⟨binom_eq_choose, ?_, ?_, ?_, ?_, by decide, by decide, by decide, by decide⟩
  · intro n k h
    rw [binom_eq_choose, Nat.choose_eq_zero_of_lt h]; rfl
  · intro n
    have := binom_eq_choose n 0
    simpa using this
  · intro n
    rw [binomLoop_one]; simp
  · intro n i h2 hn
    obtain ⟨j, rfl⟩ : ∃ j, i = j + 1 := ⟨i - 1, by omega⟩
    have hstep := binomLoop_succ n j (by omega)
    have hprev := binomLoop_eq_choose n j (by omega) (by omega)
    have hex := binomLoop_step_exact n j hn
    simp only [Nat.add_sub_cancel]
    refine ⟨?_, hstep, binomLoop_eq_choose n (j + 1) (by omega) hn⟩
    rw [hprev, hex]
    exact Dvd.intro_left _ rfl

theorem binom_spec_witness :
    (2 ≤ 3 ∧ 3 ≤ 7) ∧
    (((3 : Nat) : Int) ∣ binomLoop (7 : Nat) (3 - 1) * (((7 : Nat) : Int) - (3 : Nat) + 1) ∧
      binomLoop (7 : Nat) 3 = (binomLoop (7 : Nat) (3 - 1) * (((7 : Nat) : Int) - (3 : Nat) + 1)).tdiv (3 : Nat) ∧
      binomLoop (7 : Nat) 3 = (((7 : Nat).choose 3 : Nat) : Int)) :=
  ⟨by decide, binom_spec.2.2.2.2.1 7 3 (by decide) (by decide)⟩

/-! ## `isValidFixation` -/

theorem isValidFixation_iff (pairs : List P) (fixation : SI) :
    isValidFixation pairs fixation = true ↔
      ∀ pr ∈ pairs, pr.1 ∈ fixation ∨ pr.2 ∈ fixation := by
  induction pairs with
  | nil => simp [isValidFixation]
  | cons pr rest ih =>
    unfold isValidFixation
    by_cases h : pr.1 ∈ fixation ∨ pr.2 ∈ fixation
    · have hc : (!inSet pr.1 fixation && !inSet pr.2 fixation) = false := by
        rcases h with h | h
        · simp [(mem_inSet _ _).2 h]
        · simp [(mem_inSet _ _).2 h]
      simp only [hc, Bool.false_eq_true, if_false, ih, List.forall_mem_cons, h, true_and]
    · have h1 : inSet pr.1 fixation = false := by
        simpa [inSet] using fun h1 => h (Or.inl h1)
      have h2 : inSet pr.2 fixation = false := by
        simpa [inSet] using fun h2 => h (Or.inr h2)
      simp only [h1, h2, Bool.not_false, Bool.and_self, if_true, List.forall_mem_cons, h,
        false_and]
      simp

/-- C7: `isValidFixation(pairs, fixation)` is true if and only if every pair `(x, y)` of the
list has `x` or `y` in `fixation`; it is true for the empty list.  For the pairs
`[(1,4),(2,3)]` it is true with fixation `{3,4}` and false with fixation `{5}`. -/
theorem isValidFixation_spec :
    (∀ (pairs : List P) (fixation : SI), isValidFixation pairs fixation = true ↔
      ∀ pr ∈ pairs, pr.1 ∈ fixation ∨ pr.2 ∈ fixation) ∧
    (∀ fixation : SI, isValidFixation [] fixation = true) ∧
    isValidFixation [(1, 4), (2, 3)] [3, 4] = true ∧
    isValidFixation [(1, 4), (2, 3)] [5] = false :=
  ⟨isValidFixation_iff, fun _ => rfl, by decide, by decide⟩

/-! ## `main` -/

theorem wrap32_def (x : Int) : wrap32 x = (x + 2147483648) % 4294967296 - 2147483648 := by
  unfold wrap32; norm_num

theorem tmod_three_range (n : Int) : -2 ≤ n.tmod 3 ∧ n.tmod 3 ≤ 2 := by
  rcases n with m | m
  · have h : (Int.ofNat m).tmod 3 = ((m % 3 : Nat) : Int) := rfl
    rw [h]; omega
  · have h : (Int.negSucc m).tmod 3 = -(((m + 1) % 3 : Nat) : Int) := rfl
    rw [h]; omega

theorem bound_eq (k b : Int) (h1 : -89478485 ≤ k) (h2 : k ≤ 89478484) (hb0 : -2 ≤ b)
    (hb2 : b ≤ 2) :
    wrap32 (wrap32 (wrap32 (24 * k) + 12) - wrap32 (8 * b)) = 24 * k + 12 - 8 * b := by
  simp only [wrap32_def]
  omega

theorem bound_le (k b : Int) (hk : 0 ≤ k) (hb0 : -2 ≤ b) (hb2 : b ≤ 2) :
    wrap32 (wrap32 (wrap32 (24 * k) + 12) - wrap32 (8 * b)) ≤ 24 * k + 12 - 8 * b := by
  simp only [wrap32_def]
  omega

theorem p_eq (k b : Int) (h1 : -1073741824 < k) (h2 : k < 1073741824) (hb0 : 0 ≤ b)
    (hb2 : b ≤ 2) : p k b = -2 * k - 1 + b := by
  unfold p
  simp only [wrap32_def]
  omega

theorem p_ge (k b : Int) (hk : 0 ≤ k) (hb0 : 0 ≤ b) (hb2 : b ≤ 2) :
    -2 * k - 1 + b ≤ p k b := by
  unfold p
  simp only [wrap32_def]
  omega

theorem usage_of_short (args : List Int) (hlen : args.length < 2) : main args = Outcome.usage := by
  match args, hlen with
  | [], _ => rfl
  | [_], _ => rfl
  | _ :: _ :: _, h => simp only [List.length_cons] at h; omega

/-- C10, amended: for every pair of `int` arguments `(n, k)` with `-89478485 ≤ k ≤ 89478484`
(the values of `k` for which `24k + 12 - 8b` is computed without `int` overflow) and
`b = n % 3`, the remainder of the truncating division (which is `n mod 3` for `n ≥ 0`), `main`
returns exit code 1 without entering the enumeration if and only if `n ≤ 24k + 12 - 8b`; with
fewer than two arguments it returns 1 without enumerating.  `n = 1`, `k = 5` is rejected. -/
theorem main_rejects_iff (n k : Int) (rest : List Int) (hk1 : -89478485 ≤ k)
    (hk2 : k ≤ 89478484) :
    (((main (n :: k :: rest)).exitCode = some 1 ∧ (main (n :: k :: rest)).enumerated = false) ↔
        n ≤ 24 * k + 12 - 8 * n.tmod 3) ∧
    (0 ≤ n → n.tmod 3 = n % 3) ∧
    (∀ args : List Int, args.length < 2 →
      (main args).exitCode = some 1 ∧ (main args).enumerated = false) ∧
    ((main [1, 5]).exitCode = some 1 ∧ (main [1, 5]).enumerated = false) := by
  obtain ⟨hb0, hb2⟩ := tmod_three_range n
  refine ⟨?_, fun h0 => Int.tmod_eq_emod h0 (by norm_num), ?_, by decide⟩
  · unfold main
    simp only [bound_eq k (n.tmod 3) hk1 hk2 hb0 hb2]
    by_cases h : n ≤ 24 * k + 12 - 8 * n.tmod 3
    · simp [h, Outcome.exitCode, Outcome.enumerated]
    · simp only [h, if_false, iff_false, not_and]
      cases enumerate n k <;> simp [Outcome.exitCode, Outcome.enumerated]
  · intro args hlen
    rw [usage_of_short args hlen]
    exact ⟨rfl, rfl⟩

theorem main_rejects_iff_witness :
    ((-89478485 : Int) ≤ 5 ∧ (5 : Int) ≤ 89478484) ∧
    ((((main (1 :: 5 :: [])).exitCode = some 1 ∧ (main (1 :: 5 :: [])).enumerated = false) ↔
        (1 : Int) ≤ 24 * 5 + 12 - 8 * (1 : Int).tmod 3) ∧
    ((0 : Int) ≤ 1 → (1 : Int).tmod 3 = 1 % 3) ∧
    (∀ args : List Int, args.length < 2 →
      (main args).exitCode = some 1 ∧ (main args).enumerated = false) ∧
    ((main [1, 5]).exitCode = some 1 ∧ (main [1, 5]).enumerated = false)) :=
  ⟨by decide, main_rejects_iff 1 5 [] (by decide) (by decide)⟩

/-! ## Loops that insert into a set -/

theorem mem_foldl_setInsert {α : Type} (f : α → Int) (xs : List α) (R : SI) (r : Int) :
    r ∈ xs.foldl (fun acc a => setInsert (f a) acc) R ↔ r ∈ R ∨ ∃ a ∈ xs, r = f a := by
  induction xs generalizing R with
  | nil => simp
  | cons x xs ih =>
    rw [List.foldl_cons, ih, mem_setInsert]
    simp only [List.mem_cons, exists_eq_or_imp]
    tauto

theorem isSet_foldl_setInsert {α : Type} (f : α → Int) (xs : List α) (R : SI) (hR : IsSet R) :
    IsSet (xs.foldl (fun acc a => setInsert (f a) acc) R) := by
  induction xs generalizing R with
  | nil => exact hR
  | cons x xs ih => exact ih _ (setInsert_isSet _ _ hR)

theorem mem_generateRemovingRange (b m : Int) (result : SI) (x : Int) :
    x ∈ generateRemovingRange b m result ↔ x ∈ result ∨ (1 ≤ x ∧ x ≤ b - 2 * m) := by
  unfold generateRemovingRange
  rw [mem_foldl_setInsert (fun j : Nat => (j : Int) + 1)]
  constructor
  · rintro (h | ⟨j, hj, rfl⟩)
    · exact Or.inl h
    · rw [List.mem_range] at hj
      exact Or.inr ⟨by omega, by omega⟩
  · rintro (h | ⟨h1, h2⟩)
    · exact Or.inl h
    · exact Or.inr ⟨(x - 1).toNat, List.mem_range.2 (by omega), by omega⟩

theorem isSet_generateRemovingRange (b m : Int) : IsSet (generateRemovingRange b m []) :=
  isSet_foldl_setInsert _ _ _ List.Pairwise.nil

theorem mem_setMinus (A B result : SI) (x : Int) :
    x ∈ setMinus A B result ↔ x ∈ result ∨ (x ∈ A ∧ x ∉ B) := by
  unfold setMinus
  induction A generalizing result with
  | nil => simp
  | cons a A ih =>
    rw [List.foldl_cons, ih]
    by_cases ha : a ∈ B
    · have : inSet a B = true := (mem_inSet a B).2 ha
      simp only [this, Bool.not_true, Bool.false_eq_true, if_false, List.mem_cons]
      constructor
      · rintro (h | ⟨h1, h2⟩)
        · exact Or.inl h
        · exact Or.inr ⟨Or.inr h1, h2⟩
      · rintro (h | ⟨h1 | h1, h2⟩)
        · exact Or.inl h
        · subst h1; exact absurd ha h2
        · exact Or.inr ⟨h1, h2⟩
    · have : inSet a B = false := by simpa [inSet] using ha
      simp only [this, Bool.not_false, if_true, mem_setInsert, List.mem_cons]
      constructor
      · rintro ((h | h) | ⟨h1, h2⟩)
        · subst h; exact Or.inr ⟨Or.inl rfl, ha⟩
        · exact Or.inl h
        · exact Or.inr ⟨Or.inr h1, h2⟩
      · rintro (h | ⟨h1 | h1, h2⟩)
        · exact Or.inl (Or.inr h)
        · exact Or.inl (Or.inl h1)
        · exact Or.inr ⟨h1, h2⟩

theorem isSet_setMinus (A B result : SI) (h : IsSet result) : IsSet (setMinus A B result) := by
  unfold setMinus
  induction A generalizing result with
  | nil => exact h
  | cons a A ih =>
    rw [List.foldl_cons]
    apply ih
    split_ifs
    · exact setInsert_isSet _ _ h
    · exact h

/-! ## The exclusion set -/

theorem mem_exclusionLoop (b : Int) (I : SI) (R : SI) (hI : IsSet I) (r : Int) :
    r ∈ exclusionLoop b I R ↔ r ∈ R ∨ InFamilies I b r := by
  induction I generalizing R with
  | nil => simp [exclusionLoop, InFamilies]
  | cons a rest ih =>
    have hrest : IsSet rest := (List.pairwise_cons.1 hI).2
    have ha : ∀ a' ∈ rest, a < a' := (List.pairwise_cons.1 hI).1
    unfold exclusionLoop
    simp only
    rw [ih _ hrest, mem_foldl_setInsert (fun a' => b - a - a')]
    have hB : (r ∈ (if (b - a).tmod 2 = 0 then setInsert ((b - a).tdiv 2) (setInsert (b - 2 * a) R)
        else setInsert (b - 2 * a) R)) ↔
        (r ∈ R ∨ r = b - 2 * a ∨ (2 ∣ (b - a) ∧ r = (b - a) / 2)) := by
      by_cases he : (b - a).tmod 2 = 0
      · have hd : (2 : Int) ∣ (b - a) := Int.dvd_of_tmod_eq_zero he
        rw [if_pos he, mem_setInsert, mem_setInsert, Int.tdiv_eq_ediv_of_dvd hd]
        tauto
      · have hd : ¬ (2 : Int) ∣ (b - a) := fun hd => he (Int.tmod_eq_zero_of_dvd hd)
        rw [if_neg he, mem_setInsert]
        tauto
    rw [hB]
    unfold InFamilies
    constructor
    · rintro (((h | h | ⟨h1, h2⟩) | ⟨a', ha', h⟩) | (⟨c, hc, h⟩ | ⟨c, hc, h1, h2⟩ | ⟨c, hc, c', hc', h1, h2⟩))
      · exact Or.inl h
      · exact Or.inr (Or.inl ⟨a, List.mem_cons_self _ _, h⟩)
      · exact Or.inr (Or.inr (Or.inl ⟨a, List.mem_cons_self _ _, h1, h2⟩))
      · exact Or.inr (Or.inr (Or.inr ⟨a, List.mem_cons_self _ _, a', List.mem_cons_of_mem _ ha',
          ha a' ha', h⟩))
      · exact Or.inr (Or.inl ⟨c, List.mem_cons_of_mem _ hc, h⟩)
      · exact Or.inr (Or.inr (Or.inl ⟨c, List.mem_cons_of_mem _ hc, h1, h2⟩))
      · exact Or.inr (Or.inr (Or.inr ⟨c, List.mem_cons_of_mem _ hc, c', List.mem_cons_of_mem _ hc',
          h1, h2⟩))
    · rintro (h | ⟨c, hc, h⟩ | ⟨c, hc, h1, h2⟩ | ⟨c, hc, c', hc', h1, h2⟩)
      · exact Or.inl (Or.inl (Or.inl h))
      · rcases List.mem_cons.1 hc with rfl | hc
        · exact Or.inl (Or.inl (Or.inr (Or.inl h)))
        · exact Or.inr (Or.inl ⟨c, hc, h⟩)
      · rcases List.mem_cons.1 hc with rfl | hc
        · exact Or.inl (Or.inl (Or.inr (Or.inr ⟨h1, h2⟩)))
        · exact Or.inr (Or.inr (Or.inl ⟨c, hc, h1, h2⟩))
      · rcases List.mem_cons.1 hc with hca | hcr
        · rcases List.mem_cons.1 hc' with hca' | hcr'
          · omega
          · subst hca
            exact Or.inl (Or.inr ⟨c', hcr', h2⟩)
        · rcases List.mem_cons.1 hc' with hca' | hcr'
          · have := ha c hcr
            omega
          · exact Or.inr (Or.inr (Or.inr ⟨c, hcr, c', hcr', h1, h2⟩))

theorem isSet_exclusionLoop (b : Int) (I : SI) (R : SI) (hR : IsSet R) :
    IsSet (exclusionLoop b I R) := by
  induction I generalizing R with
  | nil => exact hR
  | cons a rest ih =>
    unfold exclusionLoop
    simp only
    apply ih
    apply isSet_foldl_setInsert
    split_ifs
    · exact setInsert_isSet _ _ (setInsert_isSet _ _ hR)
    · exact setInsert_isSet _ _ hR

theorem isSet_exclusionSet (I : SI) (b : Int) : IsSet (exclusionSet I b) :=
  isSet_exclusionLoop b I [] List.Pairwise.nil

/-- C5: for a set `I` and an integer `b`, the exclusion set `R` built at the start of
`updateCount` contains `r` if and only if `r = b - 2a` for some `a` in `I`, or
`r = (b - a) / 2` for some `a` in `I` with `b - a` even, or `r = b - a - a'` for some
`a < a'` in `I`; `R` is a set, and it is empty when `I` is empty. -/
theorem exclusionSet_spec (I : SI) (b : Int) (hI : IsSet I) :
    (∀ r, r ∈ exclusionSet I b ↔
      ((∃ a ∈ I, r = b - 2 * a) ∨
       (∃ a ∈ I, 2 ∣ (b - a) ∧ r = (b - a) / 2) ∨
       (∃ a ∈ I, ∃ a' ∈ I, a < a' ∧ r = b - a - a'))) ∧
    IsSet (exclusionSet I b) ∧
    exclusionSet [] b = [] := by
  refine ⟨fun r => ?_, isSet_exclusionSet I b, rfl⟩
  unfold exclusionSet
  rw [mem_exclusionLoop b I [] hI r]
  simp [InFamilies]

theorem exclusionSet_spec_witness :
    IsSet [-2, 0] ∧ exclusionSet [-2, 0] 1 = [1, 3, 5] ∧
    ((∀ r, r ∈ exclusionSet [-2, 0] 1 ↔
      ((∃ a ∈ ([-2, 0] : SI), r = 1 - 2 * a) ∨
       (∃ a ∈ ([-2, 0] : SI), 2 ∣ (1 - a) ∧ r = (1 - a) / 2) ∨
       (∃ a ∈ ([-2, 0] : SI), ∃ a' ∈ ([-2, 0] : SI), a < a' ∧ r = 1 - a - a'))) ∧
    IsSet (exclusionSet [-2, 0] 1) ∧
    exclusionSet [] 1 = []) :=
  ⟨by decide, by decide, exclusionSet_spec [-2, 0] 1 (by decide)⟩

/-! ## The pair list -/

theorem pairsInner_spec (b a : Int) (R : SI) (fuel : Nat) (x : Int) (acc : List P)
    (hfuel : b - a - 2 * x ≤ fuel) :
    ∃ new, pairsInner b a R fuel x acc = acc ++ new ∧
      (∀ q : P, q ∈ new ↔
        (x ≤ q.1 ∧ q.1 < q.2 ∧ q.1 + q.2 = b - a ∧ q.1 ∉ R ∧ q.2 ∉ R)) ∧
      new.Pairwise (fun q1 q2 => q1.1 < q2.1) := by
  induction fuel generalizing x acc with
  | zero =>
    refine ⟨[], by simp [pairsInner], ?_, List.Pairwise.nil⟩
    intro q
    simp only [List.not_mem_nil, false_iff]
    rintro ⟨h1, h2, h3, -, -⟩
    simp only [Nat.cast_zero] at hfuel
    omega
  | succ fuel ih =>
    unfold pairsInner
    by_cases hx : x < b - a - x
    · rw [if_pos hx]
      by_cases hin : (inSet x R || inSet (b - a - x) R) = true
      · have hor : x ∈ R ∨ (b - a - x) ∈ R := by
          simpa [inSet] using hin
        simp only [hin, Bool.not_true, Bool.false_eq_true, if_false]
        obtain ⟨new, heq, hmem, hord⟩ := ih (x + 1) acc (by push_cast at hfuel; omega)
        refine ⟨new, heq, ?_, hord⟩
        intro q
        rw [hmem q]
        constructor
        · rintro ⟨h1, h2, h3, h4, h5⟩
          exact ⟨by omega, h2, h3, h4, h5⟩
        · rintro ⟨h1, h2, h3, h4, h5⟩
          refine ⟨?_, h2, h3, h4, h5⟩
          by_contra hlt
          have hq1 : q.1 = x := by omega
          have hq2 : q.2 = b - a - x := by omega
          rw [hq1] at h4
          rw [hq2] at h5
          exact hor.elim h4 h5
      · have hx1 : x ∉ R := fun h => hin (by simp [inSet, h])
        have hx2 : (b - a - x) ∉ R := fun h => hin (by simp [inSet, h])
        simp only [Bool.not_eq_true] at hin
        simp only [hin, Bool.not_false, if_true]
        obtain ⟨new, heq, hmem, hord⟩ :=
          ih (x + 1) (acc ++ [(x, b - a - x)]) (by push_cast at hfuel; omega)
        refine ⟨(x, b - a - x) :: new, by rw [heq]; simp, ?_, ?_⟩
        · intro q
          rw [List.mem_cons, hmem q]
          constructor
          · rintro (rfl | ⟨h1, h2, h3, h4, h5⟩)
            · exact ⟨le_refl _, hx, by simp, hx1, hx2⟩
            · exact ⟨by omega, h2, h3, h4, h5⟩
          · rintro ⟨h1, h2, h3, h4, h5⟩
            by_cases hq : q.1 = x
            · left
              have hq2 : q.2 = b - a - x := by omega
              exact Prod.ext hq hq2
            · exact Or.inr ⟨by omega, h2, h3, h4, h5⟩
        · rw [List.pairwise_cons]
          refine ⟨?_, hord⟩
          intro q hq
          have := ((hmem q).1 hq).1
          show x < q.1
          omega
    · rw [if_neg hx]
      refine ⟨[], by simp, ?_, List.Pairwise.nil⟩
      intro q
      simp only [List.not_mem_nil, false_iff]
      rintro ⟨h1, h2, h3, -, -⟩
      omega

theorem pairList_loop_spec (b : Int) (R : SI) (I : SI) (acc : List P) (hI : IsSet I) :
    ∃ new, I.foldl (fun pairs a => pairsInner b a R (b - a).toNat 1 pairs) acc = acc ++ new ∧
      (∀ q : P, q ∈ new ↔
        ∃ a ∈ I, 1 ≤ q.1 ∧ q.1 < q.2 ∧ q.1 + q.2 = b - a ∧ q.1 ∉ R ∧ q.2 ∉ R) ∧
      new.Pairwise (PairOrder b) := by
  induction I generalizing acc with
  | nil => exact ⟨[], by simp, by simp, List.Pairwise.nil⟩
  | cons a rest ih =>
    have hrest : IsSet rest := (List.pairwise_cons.1 hI).2
    have ha : ∀ a' ∈ rest, a < a' := (List.pairwise_cons.1 hI).1
    obtain ⟨new1, heq1, hmem1, hord1⟩ :=
      pairsInner_spec b a R (b - a).toNat 1 acc (by omega)
    obtain ⟨new2, heq2, hmem2, hord2⟩ := ih (acc ++ new1) hrest
    refine ⟨new1 ++ new2, by rw [List.foldl_cons, heq1, heq2, List.append_assoc], ?_, ?_⟩
    · intro q
      rw [List.mem_append, hmem1 q, hmem2 q]
      simp only [List.mem_cons, exists_eq_or_imp]
    · rw [List.pairwise_append]
      refine ⟨List.Pairwise.imp_of_mem ?_ hord1, hord2, ?_⟩
      · intro q1 q2 h1 h2 hlt
        right
        have e1 := ((hmem1 q1).1 h1).2.2.1
        have e2 := ((hmem1 q2).1 h2).2.2.1
        exact ⟨by omega, hlt⟩
      · intro q1 h1 q2 h2
        left
        have e1 := ((hmem1 q1).1 h1).2.2.1
        obtain ⟨a', ha', -, -, e2, -, -⟩ := (hmem2 q2).1 h2
        have := ha a' ha'
        omega

/-- C6: for a set `I`, an integer `b` and the exclusion set `R` built from them, the pair list
built by `updateCount` contains `(x, y)` if and only if some `a` in `I` has `x ≥ 1`, `x < y`,
`x + y = b - a`, `x ∉ R` and `y ∉ R`; the list is in ascending order of `a = b - x - y` and,
for equal `a`, in ascending order of `x`. -/
theorem pairList_spec (I : SI) (b : Int) (hI : IsSet I) :
    (∀ x y : Int, (x, y) ∈ pairList I b (exclusionSet I b) ↔
      ∃ a ∈ I, 1 ≤ x ∧ x < y ∧ x + y = b - a ∧
        x ∉ exclusionSet I b ∧ y ∉ exclusionSet I b) ∧
    (pairList I b (exclusionSet I b)).Pairwise
      (fun q1 q2 => b - q1.1 - q1.2 < b - q2.1 - q2.2 ∨
        (b - q1.1 - q1.2 = b - q2.1 - q2.2 ∧ q1.1 < q2.1)) := by
  obtain ⟨new, heq, hmem, hord⟩ := pairList_loop_spec b (exclusionSet I b) I [] hI
  have hl : pairList I b (exclusionSet I b) = new := by
    unfold pairList; rw [heq]; rfl
  rw [hl]
  exact ⟨fun x y => hmem (x, y), hord⟩

theorem pairList_spec_witness :
    IsSet [-4, -2] ∧ pairList [-4, -2] 1 (exclusionSet [-4, -2] 1) = [(1, 4), (2, 3), (1, 2)] ∧
    ((∀ x y : Int, (x, y) ∈ pairList [-4, -2] 1 (exclusionSet [-4, -2] 1) ↔
      ∃ a ∈ ([-4, -2] : SI), 1 ≤ x ∧ x < y ∧ x + y = 1 - a ∧
        x ∉ exclusionSet [-4, -2] 1 ∧ y ∉ exclusionSet [-4, -2] 1) ∧
    (pairList [-4, -2] 1 (exclusionSet [-4, -2] 1)).Pairwise
      (fun q1 q2 => 1 - q1.1 - q1.2 < 1 - q2.1 - q2.2 ∨
        (1 - q1.1 - q1.2 = 1 - q2.1 - q2.2 ∧ q1.1 < q2.1))) :=
  ⟨by decide, by decide, pairList_spec [-4, -2] 1 (by decide)⟩

/-! ## The complement enumeration -/

theorem fixationStep_eq (R_c : SI) (pairs : List P) (l n k : Int) (xnSize : Nat) (count : Int)
    (b1 : Nat) (hlen : R_c.length ≤ 31) (hRc : IsSet R_c) :
    fixationStep R_c pairs l n k xnSize count b1 =
      count + fixationTerm pairs l n k xnSize (selectBits b1 R_c 0) := by
  unfold fixationStep fixationTerm
  rw [generateSubset_eq R_c b1 hlen hRc]
  simp only
  by_cases h1 : l + ((selectBits b1 R_c 0).length : Int) ≤ k
  · by_cases h2 : isValidFixation pairs (selectBits b1 R_c 0) = true
    · simp [h1, h2]
    · simp [h1, h2]
  · simp [h1]

theorem fixation_loop_eq (R_c : SI) (pairs : List P) (l n k : Int) (xnSize : Nat) (count : Int)
    (N : Nat) (hlen : R_c.length ≤ 31) (hRc : IsSet R_c) :
    (List.range N).foldl (fixationStep R_c pairs l n k xnSize) count =
      count + ∑ b1 ∈ Finset.range N,
        fixationTerm pairs l n k xnSize (selectBits b1 R_c 0) := by
  induction N with
  | zero => simp
  | succ N ih =>
    rw [List.range_succ, List.foldl_append, ih, Finset.sum_range_succ]
    simp only [List.foldl_cons, List.foldl_nil]
    rw [fixationStep_eq _ _ _ _ _ _ _ _ hlen hRc]
    ring

theorem sum_selectBits (S : SI) (hS : IsSet S) (g : Finset Int → Int) :
    ∑ b1 ∈ Finset.range (2 ^ S.length), g (selectBits b1 S 0).toFinset =
      ∑ F ∈ S.toFinset.powerset, g F := by
  refine Finset.sum_bij (fun b1 _ => (selectBits b1 S 0).toFinset) ?_ ?_ ?_ ?_
  · intro b1 _
    rw [Finset.mem_powerset]
    intro x hx
    rw [List.mem_toFinset] at hx ⊢
    exact (selectBits_sublist b1 S 0).subset hx
  · intro b1 h1 b2 h2 heq
    rw [Finset.mem_range] at h1 h2
    simp only at heq
    apply eq_of_selectBits_eq b1 b2 S hS h1 h2
    apply isSet_ext (selectBits_isSet b1 S 0 hS) (selectBits_isSet b2 S 0 hS)
    intro x
    rw [← List.mem_toFinset, ← List.mem_toFinset, heq]
  · intro F hF
    rw [Finset.mem_powerset] at hF
    refine ⟨encodeSubset S F.toList, Finset.mem_range.2 (encodeSubset_lt S _), ?_⟩
    simp only
    rw [selectBits_encodeSubset]
    ext x
    simp only [List.mem_toFinset, List.mem_filter, Finset.mem_toList, decide_eq_true_eq]
    constructor
    · exact fun h => h.2
    · intro h
      exact ⟨List.mem_toFinset.1 (hF h), h⟩
  · intro b1 _
    rfl

theorem head_of_min (I : SI) (m : Int) (hI : IsSet I) (hm : m ∈ I) (hmin : ∀ a ∈ I, m ≤ a) :
    I.head? = some m := by
  cases I with
  | nil => simp at hm
  | cons a rest =>
    simp only [List.head?_cons, Option.some.injEq]
    rcases List.mem_cons.1 hm with h | h
    · exact h.symm
    · have h1 := (List.pairwise_cons.1 hI).1 m h
      have h2 := hmin a (List.mem_cons_self _ _)
      omega

theorem generateRemovingRange_toFinset (b m : Int) :
    (generateRemovingRange b m []).toFinset = Finset.Icc 1 (b - 2 * m) := by
  ext x
  rw [List.mem_toFinset, mem_generateRemovingRange, Finset.mem_Icc]
  simp

theorem generateRemovingRange_length (b m : Int) :
    (generateRemovingRange b m []).length = (Finset.Icc (1 : Int) (b - 2 * m)).card := by
  rw [← generateRemovingRange_toFinset,
    List.toFinset_card_of_nodup (isSet_nodup (isSet_generateRemovingRange b m))]

theorem setMinus_toFinset (A B : SI) :
    (setMinus A B []).toFinset = A.toFinset \ B.toFinset := by
  ext x
  rw [List.mem_toFinset, mem_setMinus, Finset.mem_sdiff, List.mem_toFinset, List.mem_toFinset]
  simp

theorem fixationTerm_toFinset (pairs : List P) (l n k : Int) (xnSize : Nat) (T : SI)
    (hT : IsSet T) :
    fixationTerm pairs l n k xnSize T =
      if l + (T.toFinset.card : Int) ≤ k ∧ ∀ pr ∈ pairs, pr.1 ∈ T.toFinset ∨ pr.2 ∈ T.toFinset
      then binom (d n - xnSize) (k - l - T.toFinset.card) else 0 := by
  unfold fixationTerm
  have hk : k - (l + (T.length : Int)) = k - l - T.length := by ring
  simp only [List.toFinset_card_of_nodup (isSet_nodup hT), isValidFixation_iff,
    List.mem_toFinset, hk]

/-! ## `updateCount` -/

theorem setMinus_length (b m : Int) (R : SI) :
    (setMinus (generateRemovingRange b m []) R []).length =
      (Finset.Icc (1 : Int) (b - 2 * m) \ R.toFinset).card := by
  rw [← generateRemovingRange_toFinset, ← setMinus_toFinset,
    List.toFinset_card_of_nodup (isSet_nodup (isSet_setMinus _ _ _ List.Pairwise.nil))]

/-- C8: over exact integers, for a non-empty set `I` with minimum `m` whose complement
`R_c = X_n \ R` has at most 31 elements, `updateCount` adds to `count` exactly the sum of
`binom(d(n) - |X_n|, k - l - |F|)` over the subsets `F` of `R_c` with `l + |F| ≤ k` that hit
every pair of the pair list, where `X_n = {1, ..., b - 2m}` and `l = |R| - |I|`; it adds
nothing when `l > k`.  `generateRemovingRange(b = 10, m = 2)` is `{1, ..., 6}`. -/
theorem updateCount_spec (I : SI) (b n k count m : Int) (hI : IsSet I) (hm : m ∈ I)
    (hmin : ∀ a ∈ I, m ≤ a)
    (hRc : (Finset.Icc (1 : Int) (b - 2 * m) \ (exclusionSet I b).toFinset).card ≤ 31) :
    updateCount I b n k count =
      some (count +
        ∑ F ∈ (Finset.Icc (1 : Int) (b - 2 * m) \ (exclusionSet I b).toFinset).powerset.filter
            (fun F => ((exclusionSet I b).length : Int) - I.length + (F.card : Int) ≤ k ∧
              ∀ pr ∈ pairList I b (exclusionSet I b), pr.1 ∈ F ∨ pr.2 ∈ F),
          binom (d n - ((Finset.Icc (1 : Int) (b - 2 * m)).card : Int))
            (k - (((exclusionSet I b).length : Int) - I.length) - (F.card : Int))) ∧
    (((exclusionSet I b).length : Int) - I.length > k →
      updateCount I b n k count = some count) ∧
    generateRemovingRange 10 2 [] = [1, 2, 3, 4, 5, 6] := by
  have hprune : ((exclusionSet I b).length : Int) - I.length > k →
      updateCount I b n k count = some count := by
    intro hl
    unfold updateCount
    simp only [hl, if_true]
  refine ⟨?_, hprune, by decide⟩
  by_cases hl : ((exclusionSet I b).length : Int) - I.length > k
  · rw [hprune hl, Finset.sum_filter]
    have hzero : ∀ F ∈ (Finset.Icc (1 : Int) (b - 2 * m) \ (exclusionSet I b).toFinset).powerset,
        (if ((exclusionSet I b).length : Int) - I.length + (F.card : Int) ≤ k ∧
            ∀ pr ∈ pairList I b (exclusionSet I b), pr.1 ∈ F ∨ pr.2 ∈ F
          then binom (d n - ((Finset.Icc (1 : Int) (b - 2 * m)).card : Int))
            (k - (((exclusionSet I b).length : Int) - I.length) - (F.card : Int))
          else 0) = 0 := by
      intro F _
      rw [if_neg]
      rintro ⟨h1, -⟩
      have : (0 : Int) ≤ F.card := Int.natCast_nonneg _
      omega
    rw [Finset.sum_eq_zero hzero, add_zero]
  · have hlen : (setMinus (generateRemovingRange b m []) (exclusionSet I b) []).length ≤ 31 := by
      rw [setMinus_length]; exact hRc
    have hset : IsSet (setMinus (generateRemovingRange b m []) (exclusionSet I b) []) :=
      isSet_setMinus _ _ _ List.Pairwise.nil
    unfold updateCount
    simp only [hl, if_false, head_of_min I m hI hm hmin]
    rw [fixation_loop_eq _ _ _ _ _ _ _ _ hlen hset, Finset.sum_filter,
      ← generateRemovingRange_length]
    congr 2
    have hterm : ∀ b1 ∈ Finset.range
        (2 ^ (setMinus (generateRemovingRange b m []) (exclusionSet I b) []).length),
        fixationTerm (pairList I b (exclusionSet I b))
          (((exclusionSet I b).length : Int) - I.length) n k
          (generateRemovingRange b m []).length
          (selectBits b1 (setMinus (generateRemovingRange b m []) (exclusionSet I b) []) 0) =
        (fun F : Finset Int =>
          if ((exclusionSet I b).length : Int) - I.length + (F.card : Int) ≤ k ∧
            ∀ pr ∈ pairList I b (exclusionSet I b), pr.1 ∈ F ∨ pr.2 ∈ F
          then binom (d n - ((generateRemovingRange b m []).length : Int))
            (k - (((exclusionSet I b).length : Int) - I.length) - (F.card : Int))
          else 0)
          (selectBits b1 (setMinus (generateRemovingRange b m []) (exclusionSet I b) []) 0).toFinset := by
      intro b1 _
      exact fixationTerm_toFinset _ _ _ _ _ _ (selectBits_isSet b1 _ 0 hset)
    have key := sum_selectBits _ hset (fun F : Finset Int =>
          if ((exclusionSet I b).length : Int) - I.length + (F.card : Int) ≤ k ∧
            ∀ pr ∈ pairList I b (exclusionSet I b), pr.1 ∈ F ∨ pr.2 ∈ F
          then binom (d n - ((generateRemovingRange b m []).length : Int))
            (k - (((exclusionSet I b).length : Int) - I.length) - (F.card : Int))
          else 0)
    rw [setMinus_toFinset, generateRemovingRange_toFinset] at key
    rw [Finset.sum_congr rfl hterm]
    exact key

theorem updateCount_spec_witness :
    (IsSet [-1] ∧ (-1 : Int) ∈ ([-1] : SI) ∧ (∀ a ∈ ([-1] : SI), (-1 : Int) ≤ a) ∧
      (Finset.Icc (1 : Int) (1 - 2 * (-1)) \ (exclusionSet [-1] 1).toFinset).card ≤ 31) ∧
    updateCount [-1] 1 37 1 0 = some 1 ∧
    (updateCount [-1] 1 37 1 0 =
      some (0 +
        ∑ F ∈ (Finset.Icc (1 : Int) (1 - 2 * (-1)) \ (exclusionSet [-1] 1).toFinset).powerset.filter
            (fun F => ((exclusionSet [-1] 1).length : Int) - ([-1] : SI).length + (F.card : Int) ≤ 1 ∧
              ∀ pr ∈ pairList [-1] 1 (exclusionSet [-1] 1), pr.1 ∈ F ∨ pr.2 ∈ F),
          binom (d 37 - ((Finset.Icc (1 : Int) (1 - 2 * (-1))).card : Int))
            (1 - (((exclusionSet [-1] 1).length : Int) - ([-1] : SI).length) - (F.card : Int))) ∧
    (((exclusionSet [-1] 1).length : Int) - ([-1] : SI).length > 1 →
      updateCount [-1] 1 37 1 0 = some 0) ∧
    generateRemovingRange 10 2 [] = [1, 2, 3, 4, 5, 6]) :=
  ⟨⟨by decide, by decide, by decide, by decide⟩, by decide,
    updateCount_spec [-1] 1 37 1 0 (-1) (by decide) (by decide) (by decide) (by decide)⟩

theorem fixationStep_cases (R_c : SI) (pairs : List P) (l n k : Int) (xnSize : Nat)
    (c : Int) (b1 : Nat) :
    fixationStep R_c pairs l n k xnSize c b1 = c ∨
      (0 ≤ k - (l + ((generateSubset R_c b1 []).length : Int)) ∧
       0 ≤ binom (d n - xnSize) (k - (l + ((generateSubset R_c b1 []).length : Int))) ∧
       fixationStep R_c pairs l n k xnSize c b1 =
         c + binom (d n - xnSize) (k - (l + ((generateSubset R_c b1 []).length : Int)))) := by
  unfold fixationStep
  simp only
  split_ifs with hc
  · right
    have hle : l + ((generateSubset R_c b1 []).length : Int) ≤ k := by
      simp only [Bool.and_eq_true, decide_eq_true_eq] at hc
      exact hc.1
    have hk : 0 ≤ k - (l + ((generateSubset R_c b1 []).length : Int)) := by omega
    exact ⟨hk, binom_nonneg _ _ hk, rfl⟩
  · left
    rfl

theorem fixation_loop_mono (R_c : SI) (pairs : List P) (l n k : Int) (xnSize : Nat)
    (codes : List Nat) (c : Int) :
    c ≤ codes.foldl (fixationStep R_c pairs l n k xnSize) c := by
  induction codes generalizing c with
  | nil => exact le_refl _
  | cons b1 rest ih =>
    rw [List.foldl_cons]
    refine le_trans ?_ (ih _)
    rcases fixationStep_cases R_c pairs l n k xnSize c b1 with h | ⟨-, hb, h⟩
    · rw [h]
    · rw [h]; omega

/-- C9: over exact integers, `updateCount` on a non-empty `I` returns a count that is at least
the count before it; every step of the loop over the fixations either leaves the count
unchanged or adds `binom(d(n) - |X_n|, k - l')` with `k - l' ≥ 0`, which is non-negative. -/
theorem updateCount_mono (I : SI) (b n k count : Int) (hne : I ≠ []) :
    (∃ c', updateCount I b n k count = some c' ∧ count ≤ c') ∧
    (∀ (R_c : SI) (pairs : List P) (l : Int) (xnSize : Nat) (c : Int) (b1 : Nat),
      fixationStep R_c pairs l n k xnSize c b1 = c ∨
        (0 ≤ k - (l + ((generateSubset R_c b1 []).length : Int)) ∧
         0 ≤ binom (d n - xnSize) (k - (l + ((generateSubset R_c b1 []).length : Int))) ∧
         fixationStep R_c pairs l n k xnSize c b1 =
           c + binom (d n - xnSize) (k - (l + ((generateSubset R_c b1 []).length : Int))))) := by
  refine ⟨?_, fun R_c pairs l xnSize c b1 => fixationStep_cases R_c pairs l n k xnSize c b1⟩
  unfold updateCount
  simp only
  split_ifs with hl
  · exact ⟨count, rfl, le_refl _⟩
  · rw [List.head?_eq_head hne]
    exact ⟨_, rfl, fixation_loop_mono _ _ _ _ _ _ _ _⟩

theorem updateCount_mono_witness :
    ([-2] : SI) ≠ [] ∧ updateCount [-2] 1 37 1 5 = some 7 ∧
    ((∃ c', updateCount [-2] 1 37 1 5 = some c' ∧ 5 ≤ c') ∧
    (∀ (R_c : SI) (pairs : List P) (l : Int) (xnSize : Nat) (c : Int) (b1 : Nat),
      fixationStep R_c pairs l 37 1 xnSize c b1 = c ∨
        (0 ≤ 1 - (l + ((generateSubset R_c b1 []).length : Int)) ∧
         0 ≤ binom (d 37 - xnSize) (1 - (l + ((generateSubset R_c b1 []).length : Int))) ∧
         fixationStep R_c pairs l 37 1 xnSize c b1 =
           c + binom (d 37 - xnSize) (1 - (l + ((generateSubset R_c b1 []).length : Int)))))) :=
  ⟨by decide, by decide, updateCount_mono [-2] 1 37 1 5 (by decide)⟩

/-! ## The outer base range, `p` and `d` -/

theorem mem_insertingRange (n k i : Int) :
    i ∈ insertingRange n k ↔
      p k (n.tmod 3) ≤ i ∧ i ≤ 0 - (if n.tmod 3 = 0 then 1 else 0) := by
  unfold insertingRange
  simp only
  rw [mem_foldl_setInsert (fun j : Nat => (0 - (if n.tmod 3 = 0 then 1 else 0) : Int) - j)]
  constructor
  · rintro (h | ⟨j, hj, rfl⟩)
    · simp at h
    · rw [List.mem_range] at hj
      constructor <;> omega
  · rintro ⟨h1, h2⟩
    refine Or.inr ⟨((0 - (if n.tmod 3 = 0 then 1 else 0) : Int) - i).toNat,
      List.mem_range.2 (by omega), by omega⟩

theorem isSet_insertingRange (n k : Int) : IsSet (insertingRange n k) :=
  isSet_foldl_setInsert _ _ _ List.Pairwise.nil

theorem insertingRange_length (n k : Int) :
    (insertingRange n k).length =
      (0 - (if n.tmod 3 = 0 then 1 else 0) + 1 - p k (n.tmod 3)).toNat := by
  rw [← List.toFinset_card_of_nodup (isSet_nodup (isSet_insertingRange n k)), ← Int.card_Icc]
  congr 1
  ext i
  rw [List.mem_toFinset, mem_insertingRange, Finset.mem_Icc]

theorem tmod_three (n : Int) (hn : 0 ≤ n) :
    n.tmod 3 = n % 3 ∧ (n.tmod 3 = 0 ∨ n.tmod 3 = 1 ∨ n.tmod 3 = 2) := by
  rw [Int.tmod_eq_emod hn (by norm_num)]
  exact ⟨rfl, by omega⟩

/-- C11, amended: for `n ≥ 1`, `b = n % 3` (which is `n mod 3`) and every `k` with
`-2^30 < k < 2^30` (the values of `k` for which `-2k - 1 + b` is computed without `int`
overflow), `p(k, b) = -2k - 1 + b` and the outer base range built by the driver is the set of
the integers `i` with `p(k, b) ≤ i ≤ 0` when `b ≠ 0` and with `p(k, b) ≤ i ≤ -1` when `b = 0`;
for `k ≥ 0` it has `2k + 2 - b` elements when `b` is 1 or 2 and `2k + 1` elements when
`b = 0`.  `p(1, 2) = -1`. -/
theorem insertingRange_spec (n k : Int) (hn : 1 ≤ n) (hk1 : -1073741824 < k)
    (hk2 : k < 1073741824) :
    n.tmod 3 = n % 3 ∧
    p k (n.tmod 3) = -2 * k - 1 + n.tmod 3 ∧
    (n.tmod 3 ≠ 0 → ∀ i, i ∈ insertingRange n k ↔ -2 * k - 1 + n.tmod 3 ≤ i ∧ i ≤ 0) ∧
    (n.tmod 3 = 0 → ∀ i, i ∈ insertingRange n k ↔ -2 * k - 1 + n.tmod 3 ≤ i ∧ i ≤ -1) ∧
    IsSet (insertingRange n k) ∧
    (0 ≤ k → n.tmod 3 ≠ 0 → ((insertingRange n k).length : Int) = 2 * k + 2 - n.tmod 3) ∧
    (0 ≤ k → n.tmod 3 = 0 → ((insertingRange n k).length : Int) = 2 * k + 1) ∧
    p 1 2 = -1 := by
  obtain ⟨hmod, hb⟩ := tmod_three n (by omega)
  have hp : p k (n.tmod 3) = -2 * k - 1 + n.tmod 3 :=
    p_eq k (n.tmod 3) hk1 hk2 (by omega) (by omega)
  refine ⟨hmod, hp, ?_, ?_, isSet_insertingRange n k, ?_, ?_, by decide⟩
  · intro h0 i
    rw [mem_insertingRange, if_neg h0, hp]
    simp
  · intro h0 i
    rw [mem_insertingRange, if_pos h0, hp]
    simp
  · intro hk h0
    rw [insertingRange_length, if_neg h0, hp]
    omega
  · intro hk h0
    rw [insertingRange_length, if_pos h0, hp]
    omega

theorem insertingRange_spec_witness :
    ((1 : Int) ≤ 31 ∧ (-1073741824 : Int) < 1 ∧ (1 : Int) < 1073741824) ∧
    insertingRange 31 1 = [-2, -1, 0] ∧
    ((31 : Int).tmod 3 = 31 % 3 ∧
    p 1 ((31 : Int).tmod 3) = -2 * 1 - 1 + (31 : Int).tmod 3 ∧
    ((31 : Int).tmod 3 ≠ 0 →
      ∀ i, i ∈ insertingRange 31 1 ↔ -2 * 1 - 1 + (31 : Int).tmod 3 ≤ i ∧ i ≤ 0) ∧
    ((31 : Int).tmod 3 = 0 →
      ∀ i, i ∈ insertingRange 31 1 ↔ -2 * 1 - 1 + (31 : Int).tmod 3 ≤ i ∧ i ≤ -1) ∧
    IsSet (insertingRange 31 1) ∧
    ((0 : Int) ≤ 1 → (31 : Int).tmod 3 ≠ 0 →
      ((insertingRange 31 1).length : Int) = 2 * 1 + 2 - (31 : Int).tmod 3) ∧
    ((0 : Int) ≤ 1 → (31 : Int).tmod 3 = 0 →
      ((insertingRange 31 1).length : Int) = 2 * 1 + 1) ∧
    p 1 2 = -1) :=
  ⟨by decide, by decide, insertingRange_spec 31 1 (by decide) (by decide) (by decide)⟩

/-- C11 as stated fails for large `k`: at `n = 15`, `k = 2^30` the `int` value of `p(k, 0)` is
`2147483647`, not `-2k - 1 = -2147483649`, and the loop of the driver inserts nothing, while
the claim puts every `i` with `-2k - 1 ≤ i ≤ -1` (so `i = -1`) in the range. -/
theorem insertingRange_spec_counterexample :
    ¬ (∀ n k : Int, 1 ≤ n → ∀ i : Int, i ∈ insertingRange n k ↔
        (-2 * k - 1 + n % 3 ≤ i ∧ i ≤ (if n % 3 = 0 then -1 else 0))) ∧
    p 1073741824 0 = 2147483647 ∧
    insertingRange 15 1073741824 = [] ∧
    ((-2 : Int) * 1073741824 - 1 + 15 % 3 ≤ -1 ∧
      (-1 : Int) ≤ (if (15 : Int) % 3 = 0 then -1 else 0)) := by
  have hnil : insertingRange 15 1073741824 = [] := by decide
  refine ⟨?_, by decide, hnil, by decide⟩
  intro h
  have hmem := (h 15 1073741824 (by decide) (-1)).2 (by decide)
  rw [hnil] at hmem
  simp at hmem

theorem d_eq_ediv (n : Int) (hn : 1 ≤ n) : d n = (n - 1) / 2 - n / 3 := by
  unfold d
  rw [Int.tdiv_eq_ediv (by omega) (by norm_num), Int.tdiv_eq_ediv (by omega) (by norm_num)]

/-- C12: for every integer `n ≥ 1`, `d(n)`, computed with the truncating division of `int`,
is `⌊(n - 1) / 2⌋ - ⌊n / 3⌋` (both dividends are non-negative), and it is non-negative.
`d(25) = 4`, `d(13) = 2`. -/
theorem d_spec (n : Int) (hn : 1 ≤ n) :
    d n = ⌊((n : ℚ) - 1) / 2⌋ - ⌊(n : ℚ) / 3⌋ ∧
    d n = (n - 1) / 2 - n / 3 ∧
    (0 ≤ n - 1 ∧ 0 ≤ n) ∧
    0 ≤ d n ∧
    d 25 = 4 ∧ d 13 = 2 := by
  have h1 : ⌊((n : ℚ) - 1) / 2⌋ = (n - 1) / 2 := by
    have := Rat.floor_intCast_div_natCast (n - 1) 2
    push_cast at this
    exact this
  have h2 : ⌊(n : ℚ) / 3⌋ = n / 3 := by
    have := Rat.floor_intCast_div_natCast n 3
    push_cast at this
    exact this
  have hd := d_eq_ediv n hn
  refine ⟨by rw [h1, h2, hd], hd, ⟨by omega, by omega⟩, ?_, by decide, by decide⟩
  rw [hd]
  omega

theorem d_spec_witness :
    ((1 : Int) ≤ 25) ∧
    (d 25 = ⌊(((25 : Int) : ℚ) - 1) / 2⌋ - ⌊((25 : Int) : ℚ) / 3⌋ ∧
    d 25 = (25 - 1) / 2 - 25 / 3 ∧
    ((0 : Int) ≤ 25 - 1 ∧ (0 : Int) ≤ 25) ∧
    0 ≤ d 25 ∧
    d 25 = 4 ∧ d 13 = 2) :=
  ⟨by decide, d_spec 25 (by decide)⟩

/-! ## Pruning -/

theorem fixationStep_pruned (R_c : SI) (pairs : List P) (l n k : Int) (xnSize : Nat)
    (c : Int) (b1 : Nat) (hl : l > k) : fixationStep R_c pairs l n k xnSize c b1 = c := by
  unfold fixationStep
  simp only
  have : ¬ l + ((generateSubset R_c b1 []).length : Int) ≤ k := by
    have : (0 : Int) ≤ (generateSubset R_c b1 []).length := Int.natCast_nonneg _
    omega
  simp [this]

theorem fixation_loop_pruned (R_c : SI) (pairs : List P) (l n k : Int) (xnSize : Nat)
    (codes : List Nat) (c : Int) (hl : l > k) :
    codes.foldl (fixationStep R_c pairs l n k xnSize) c = c := by
  induction codes with
  | nil => rfl
  | cons b1 rest ih => rw [List.foldl_cons, fixationStep_pruned _ _ _ _ _ _ _ _ hl, ih]

/-- C13: for a non-empty `I`, `updateCount` with the pruning check `l > k` removed returns the
same count as `updateCount`: when `l > k`, every fixation `F` has `l + |F| > k`, so no step of
the loop over the fixations changes the count. -/
theorem updateCount_prune_irrelevant (I : SI) (b n k count : Int) (hne : I ≠ []) :
    updateCountNoPrune I b n k count = updateCount I b n k count ∧
    (∃ c', updateCountNoPrune I b n k count = some c') ∧
    (((exclusionSet I b).length : Int) - I.length > k →
      (∀ F : SI, ((exclusionSet I b).length : Int) - I.length + (F.length : Int) > k) ∧
      ∀ (R_c : SI) (pairs : List P) (xnSize : Nat) (c : Int) (b1 : Nat),
        fixationStep R_c pairs (((exclusionSet I b).length : Int) - I.length) n k xnSize c b1
          = c) := by
  refine ⟨?_, ?_, ?_⟩
  · unfold updateCountNoPrune updateCount
    simp only
    rw [List.head?_eq_head hne]
    split_ifs with hl
    · simp only
      rw [fixation_loop_pruned _ _ _ _ _ _ _ _ hl]
    · rfl
  · unfold updateCountNoPrune
    simp only
    rw [List.head?_eq_head hne]
    exact ⟨_, rfl⟩
  · intro hl
    refine ⟨?_, fun R_c pairs xnSize c b1 => fixationStep_pruned _ _ _ _ _ _ _ _ hl⟩
    intro F
    have : (0 : Int) ≤ F.length := Int.natCast_nonneg _
    omega

theorem updateCount_prune_irrelevant_witness :
    (([-4, -2] : SI) ≠ []) ∧
    (updateCount [-4, -2] 1 37 0 5 = some 5 ∧ updateCountNoPrune [-4, -2] 1 37 0 5 = some 5) ∧
    (updateCountNoPrune [-4, -2] 1 37 0 5 = updateCount [-4, -2] 1 37 0 5 ∧
    (∃ c', updateCountNoPrune [-4, -2] 1 37 0 5 = some c') ∧
    (((exclusionSet [-4, -2] 1).length : Int) - ([-4, -2] : SI).length > 0 →
      (∀ F : SI, ((exclusionSet [-4, -2] 1).length : Int) - ([-4, -2] : SI).length
        + (F.length : Int) > 0) ∧
      ∀ (R_c : SI) (pairs : List P) (xnSize : Nat) (c : Int) (b1 : Nat),
        fixationStep R_c pairs
          (((exclusionSet [-4, -2] 1).length : Int) - ([-4, -2] : SI).length) 37 0 xnSize c b1
          = c)) :=
  ⟨by decide, by decide, updateCount_prune_irrelevant [-4, -2] 1 37 0 5 (by decide)⟩

/-! ## `binom` in 32-bit arithmetic -/

/-- C14: with the arithmetic of `binom` in 32-bit `int` with wrap-around there is an input
`0 ≤ k ≤ n` whose binomial coefficient fits in an `int`, for which a product
`result * (n - i + 1)` of the loop exceeds the `int` range and the returned value is not
`C(n, k)`: `n = 46342`, `k = 2`, where `C(n, k) = 1073767311`, the product is `2147534622`
and the returned value is `-1073716337`. -/
theorem binom32_overflow :
    ∃ n k : Nat, k ≤ n ∧ ((n.choose k : Nat) : Int) < 2 ^ 31 ∧
      (∃ i : Nat, 2 ≤ i ∧ i ≤ k ∧
        2 ^ 31 - 1 < binomLoop32 n (i - 1) * ((n : Int) - i + 1)) ∧
      binom32 n k ≠ ((n.choose k : Nat) : Int) ∧
      binom n k = ((n.choose k : Nat) : Int) ∧
      n = 46342 ∧ k = 2 ∧ ((n.choose k : Nat) : Int) = 1073767311 ∧
      binom32 n k = -1073716337 := by
  have hc : ((Nat.choose 46342 2 : Nat) : Int) = 1073767311 := by
    rw [Nat.choose_two_right]
    norm_num
  have h32 : binom32 ((46342 : Nat) : Int) ((2 : Nat) : Int) = -1073716337 := by decide
  refine ⟨46342, 2, by norm_num, ?_, ⟨2, le_refl _, le_refl _, ?_⟩, ?_, binom_eq_choose _ _,
    rfl, rfl, hc, h32⟩
  · rw [hc]; norm_num
  · decide
  · rw [hc, h32]; decide

/-! ## The doc comment of `generateSubset` -/

theorem generateSubset_four (x1 x2 x3 x4 : Int) (b : Nat) (h12 : x1 < x2) (h23 : x2 < x3)
    (h34 : x3 < x4) :
    generateSubset [x1, x2, x3, x4] b [] = selectBits b [x1, x2, x3, x4] 0 := by
  apply generateSubset_eq _ _ (by simp)
  unfold IsSet
  simp only [List.pairwise_cons, List.mem_cons, List.mem_singleton, List.not_mem_nil,
    forall_eq_or_imp, forall_eq, IsEmpty.forall_iff, implies_true, List.Pairwise.nil, and_true]
  omega

/-- C15: on the four-element set `{1, 2, 3, 4}` and `b = 1011` in binary (eleven),
`generateSubset` called with an empty `result` yields `{x_1, x_2, x_4} = {1, 2, 4}`, not the
set `{x_1, x_3, x_4} = {1, 3, 4}` of the doc comment; `{x_1, x_3, x_4}` is what `b = 1101`
yields. -/
theorem generateSubset_doc_example :
    generateSubset [1, 2, 3, 4] 0b1011 [] = [1, 2, 4] ∧
    generateSubset [1, 2, 3, 4] 0b1011 [] ≠ [1, 3, 4] ∧
    generateSubset [1, 2, 3, 4] 0b1101 [] = [1, 3, 4] ∧
    (∀ x1 x2 x3 x4 : Int, x1 < x2 → x2 < x3 → x3 < x4 →
      generateSubset [x1, x2, x3, x4] 0b1011 [] = [x1, x2, x4] ∧
      generateSubset [x1, x2, x3, x4] 0b1011 [] ≠ [x1, x3, x4]) := by
  refine ⟨by decide, by decide, by decide, ?_⟩
  intro x1 x2 x3 x4 h12 h23 h34
  rw [generateSubset_four x1 x2 x3 x4 _ h12 h23 h34]
  have hsel : selectBits 0b1011 [x1, x2, x3, x4] 0 = [x1, x2, x4] := by
    simp [selectBits, Nat.testBit]
  rw [hsel]
  refine ⟨rfl, ?_⟩
  intro h
  have := (List.cons.inj (List.cons.inj h).2).1
  omega

/-! ## The empty candidate subset -/

theorem generateSubset_zero (S : SI) : generateSubset S 0 [] = [] :=
  generateSubsetLoop_zero S 0 []

theorem updateCount_nil (b n k count : Int) (hk : 0 ≤ k) :
    updateCount [] b n k count = none := by
  unfold updateCount
  have h0 : ¬ (((exclusionSet [] b).length : Int) - (([] : SI).length : Int) > k) := by
    simp [exclusionSet, exclusionLoop]
    omega
  simp only [h0, if_false, List.head?_nil]

theorem enumerate_undefined (n k : Int) (hk : 0 ≤ k) : enumerate n k = none := by
  unfold enumerate
  simp only
  split_ifs with hp
  · rfl
  · obtain ⟨N, hN⟩ : ∃ N, 2 ^ (insertingRange n k).length = N + 1 :=
      ⟨2 ^ (insertingRange n k).length - 1, by
        have : 0 < 2 ^ (insertingRange n k).length := by positivity
        omega⟩
    rw [hN, List.range_succ_eq_map, List.foldlM_cons]
    have : driverStep (insertingRange n k) (n.tmod 3) n k 0 0 = none := by
      unfold driverStep
      rw [generateSubset_zero, updateCount_nil _ _ _ _ hk]
    rw [this]
    rfl

/-- C10 as stated fails at two kinds of input.  At `n = 1`, `k = 89478486` the `int` value of
`24k + 12 - 8b` is `-2147483628`, so the run is not rejected although
`1 ≤ 24k + 12 - 8b`.  At `n = -5`, `k = -1` the code has `b = -5 % 3 = -2` and rejects with
the bound `4`, although with `b = n mod 3 = 1` the claim's bound is `-20 < -5`. -/
theorem main_rejects_iff_counterexample :
    ¬ (∀ n k : Int,
        ((main [n, k]).exitCode = some 1 ∧ (main [n, k]).enumerated = false) ↔
          n ≤ 24 * k + 12 - 8 * (n % 3)) ∧
    (main [1, 89478486] = Outcome.undefined ∧
      (1 : Int) ≤ 24 * 89478486 + 12 - 8 * (1 % 3)) ∧
    (main [-5, -1] = Outcome.rejected 4 ∧
      ¬ ((-5 : Int) ≤ 24 * (-1) + 12 - 8 * ((-5) % 3))) := by
  have h1 : main [1, 89478486] = Outcome.undefined := by
    unfold main
    simp only [enumerate_undefined 1 89478486 (by decide)]
    decide
  refine ⟨?_, ⟨h1, by decide⟩, by decide, by decide⟩
  intro h
  have := ((h 1 89478486).2 (by decide)).1
  rw [h1] at this
  simp [Outcome.exitCode] at this

/-- C16: for every accepted input `(n, k)` with `k ≥ 0`, the first code `0` of the outer loop
decodes to the empty subset `I`; for the empty `I` the exclusion set is empty and the
deficiency is `0 ≤ k`, so the pruning check does not return and `updateCount` takes the first
element of the empty set to size `X_n`, which has no value (`none`); the enumeration and the
run of `main` are undefined. -/
theorem empty_subset_undefined (n k count : Int) (hk : 0 ≤ k)
    (hacc : ¬ n ≤ 24 * k + 12 - 8 * n.tmod 3) :
    generateSubset (insertingRange n k) 0 [] = [] ∧
    exclusionSet [] (n.tmod 3) = [] ∧
    ((exclusionSet [] (n.tmod 3)).length : Int) - (([] : SI).length : Int) = 0 ∧
    ¬ (((exclusionSet [] (n.tmod 3)).length : Int) - (([] : SI).length : Int) > k) ∧
    ([] : SI).head? = none ∧
    updateCount [] (n.tmod 3) n k count = none ∧
    enumerate n k = none ∧
    main [n, k] = Outcome.undefined := by
  refine ⟨generateSubset_zero _, rfl, by simp [exclusionSet, exclusionLoop], ?_, rfl,
    updateCount_nil _ _ _ _ hk, enumerate_undefined n k hk, ?_⟩
  · simp [exclusionSet, exclusionLoop]
    omega
  · obtain ⟨hb0, hb2⟩ := tmod_three_range n
    have hle := bound_le k (n.tmod 3) hk hb0 hb2
    have hrej : ¬ n ≤ wrap32 (wrap32 (wrap32 (24 * k) + 12) - wrap32 (8 * n.tmod 3)) := by
      omega
    unfold main
    simp only [hrej, if_false, enumerate_undefined n k hk]

theorem empty_subset_undefined_witness :
    ((0 : Int) ≤ 2 ∧ ¬ (61 : Int) ≤ 24 * 2 + 12 - 8 * (61 : Int).tmod 3) ∧
    (generateSubset (insertingRange 61 2) 0 [] = [] ∧
    exclusionSet [] ((61 : Int).tmod 3) = [] ∧
    ((exclusionSet [] ((61 : Int).tmod 3)).length : Int) - (([] : SI).length : Int) = 0 ∧
    ¬ (((exclusionSet [] ((61 : Int).tmod 3)).length : Int) - (([] : SI).length : Int) > 2) ∧
    ([] : SI).head? = none ∧
    updateCount [] ((61 : Int).tmod 3) 61 2 7 = none ∧
    enumerate 61 2 = none ∧
    main [61, 2] = Outcome.undefined) :=
  ⟨by decide, empty_subset_undefined 61 2 7 (by decide) (by decide)⟩

/-! ## Sizes of `X_n`, `R` and the complement -/

theorem head_le (I : SI) (hne : I ≠ []) (hI : IsSet I) : ∀ a ∈ I, I.head hne ≤ a := by
  cases I with
  | nil => exact absurd rfl hne
  | cons x rest =>
    intro a ha
    simp only [List.head_cons]
    rcases List.mem_cons.1 ha with rfl | ha
    · exact le_refl _
    · exact le_of_lt ((List.pairwise_cons.1 hI).1 a ha)

theorem d_lower_bound (n k : Int) (hn : 0 < n) (hacc : n > 24 * k + 12 - 8 * n.tmod 3) :
    4 * k + 2 - n.tmod 3 ≤ d n := by
  rw [d_eq_ediv n (by omega)]
  rw [(tmod_three n (by omega)).1] at hacc ⊢
  omega

/-- C17: for a positive `n` and `k ≥ 0` that pass validation (`n > 24k + 12 - 8b`,
`b = n % 3`) and a non-empty subset `I` of the outer base range with first (least) element
`m`, the set `X_n` has `b - 2m ≤ 4k + 2 - b ≤ d(n)` elements, so the upper argument
`d(n) - |X_n|` of the binomial term is non-negative. -/
theorem binom_upper_nonneg (n k : Int) (I : SI) (hn : 0 < n) (hk : 0 ≤ k)
    (hacc : n > 24 * k + 12 - 8 * n.tmod 3) (hne : I ≠ []) (hI : IsSet I)
    (hsub : ∀ a ∈ I, a ∈ insertingRange n k) :
    (∀ a ∈ I, I.head hne ≤ a) ∧
    ((generateRemovingRange (n.tmod 3) (I.head hne) []).length : Int)
      = n.tmod 3 - 2 * I.head hne ∧
    n.tmod 3 - 2 * I.head hne ≤ 4 * k + 2 - n.tmod 3 ∧
    4 * k + 2 - n.tmod 3 ≤ d n ∧
    0 ≤ d n - ((generateRemovingRange (n.tmod 3) (I.head hne) []).length : Int) := by
  have hm := (mem_insertingRange n k _).1 (hsub _ (List.head_mem hne))
  have hb := (tmod_three n (by omega)).2
  have hd := d_lower_bound n k hn hacc
  have hp : -2 * k - 1 + n.tmod 3 ≤ p k (n.tmod 3) :=
    p_ge k (n.tmod 3) hk (by omega) (by omega)
  have hup : I.head hne ≤ 0 := by
    have := hm.2
    split_ifs at this <;> omega
  have hlen : ((generateRemovingRange (n.tmod 3) (I.head hne) []).length : Int)
      = n.tmod 3 - 2 * I.head hne := by
    rw [generateRemovingRange_length, Int.card_Icc]
    omega
  refine ⟨head_le I hne hI, hlen, by omega, hd, ?_⟩
  rw [hlen]
  omega

theorem binom_upper_nonneg_witness :
    ((0 : Int) < 31 ∧ (0 : Int) ≤ 1 ∧ (31 : Int) > 24 * 1 + 12 - 8 * (31 : Int).tmod 3 ∧
      IsSet [-2, 0] ∧ ∀ a ∈ ([-2, 0] : SI), a ∈ insertingRange 31 1) ∧
    ((∀ a ∈ ([-2, 0] : SI), ([-2, 0] : SI).head (by decide) ≤ a) ∧
    ((generateRemovingRange ((31 : Int).tmod 3) (([-2, 0] : SI).head (by decide)) []).length : Int)
      = (31 : Int).tmod 3 - 2 * ([-2, 0] : SI).head (by decide) ∧
    (31 : Int).tmod 3 - 2 * ([-2, 0] : SI).head (by decide) ≤ 4 * 1 + 2 - (31 : Int).tmod 3 ∧
    4 * 1 + 2 - (31 : Int).tmod 3 ≤ d 31 ∧
    0 ≤ d 31 -
      ((generateRemovingRange ((31 : Int).tmod 3) (([-2, 0] : SI).head (by decide)) []).length
        : Int)) :=
  ⟨by decide, binom_upper_nonneg 31 1 [-2, 0] (by decide) (by decide) (by decide) (by decide)
    (by decide) (by decide)⟩

/-- C18: for a set `I` and an integer `b`, the exclusion set `R` has at least as many elements
as `I`, so the deficiency `l = |R| - |I|` is not negative: `a ↦ b - 2a` maps `I` into `R` and
is injective. -/
theorem deficiency_nonneg (I : SI) (b : Int) (hI : IsSet I) :
    I.length ≤ (exclusionSet I b).length ∧
    0 ≤ ((exclusionSet I b).length : Int) - (I.length : Int) ∧
    (∀ a ∈ I, b - 2 * a ∈ exclusionSet I b) ∧
    (∀ a a' : Int, b - 2 * a = b - 2 * a' → a = a') := by
  have hmem : ∀ a ∈ I, b - 2 * a ∈ exclusionSet I b := by
    intro a ha
    unfold exclusionSet
    rw [mem_exclusionLoop b I [] hI]
    exact Or.inr (Or.inl ⟨a, ha, rfl⟩)
  have hinj : Function.Injective (fun a : Int => b - 2 * a) := by
    intro a a' h
    simp only at h
    omega
  have hle : I.length ≤ (exclusionSet I b).length := by
    rw [← List.toFinset_card_of_nodup (isSet_nodup hI),
      ← List.toFinset_card_of_nodup (isSet_nodup (isSet_exclusionSet I b)),
      ← Finset.card_image_of_injective I.toFinset hinj]
    apply Finset.card_le_card
    intro r hr
    rw [Finset.mem_image] at hr
    obtain ⟨a, ha, rfl⟩ := hr
    rw [List.mem_toFinset] at ha ⊢
    exact hmem a ha
  exact ⟨hle, by omega, hmem, fun a a' h => hinj h⟩

theorem deficiency_nonneg_witness :
    IsSet [-4, -2] ∧ exclusionSet [-4, -2] 1 = [5, 7, 9] ∧
    (([-4, -2] : SI).length ≤ (exclusionSet [-4, -2] 1).length ∧
    0 ≤ ((exclusionSet [-4, -2] 1).length : Int) - (([-4, -2] : SI).length : Int) ∧
    (∀ a ∈ ([-4, -2] : SI), 1 - 2 * a ∈ exclusionSet [-4, -2] 1) ∧
    (∀ a a' : Int, 1 - 2 * a = 1 - 2 * a' → a = a')) :=
  ⟨by decide, by decide, deficiency_nonneg [-4, -2] 1 (by decide)⟩

theorem exclusionSet_bounds (I : SI) (b : Int) (hb : b = 0 ∨ b = 1 ∨ b = 2) (hne : I ≠ [])
    (hI : IsSet I) (hle : ∀ a ∈ I, a ≤ 0) (hle0 : b = 0 → ∀ a ∈ I, a ≤ -1) :
    ∀ r ∈ exclusionSet I b, 1 ≤ r ∧ r ≤ b - 2 * I.head hne := by
  intro r hr
  unfold exclusionSet at hr
  rw [mem_exclusionLoop b I [] hI] at hr
  have hmin := head_le I hne hI
  rcases hr with hr | ⟨a, ha, rfl⟩ | ⟨a, ha, hd, rfl⟩ | ⟨a, ha, a', ha', hlt, rfl⟩
  · simp at hr
  · have h1 := hle a ha
    have h2 := hmin a ha
    have h3 : b = 0 → a ≤ -1 := fun h => hle0 h a ha
    omega
  · have h1 := hle a ha
    have h2 := hmin a ha
    have h3 : b = 0 → a ≤ -1 := fun h => hle0 h a ha
    omega
  · have h1 := hle a' ha'
    have h2 := hmin a ha
    have h3 := hmin a' ha'
    omega

/-- C19: for `b` in `{0, 1, 2}` and a non-empty set `I` of integers that are all `≤ 0` (and
all `≤ -1` when `b = 0`), every element of the exclusion set `R` lies in
`X_n = {1, ..., b - 2 min(I)}`; so `R` is a subset of `X_n` and the complement has
`|R_c| = |X_n| - |R|` elements. -/
theorem exclusionSet_subset_range (I : SI) (b : Int) (hb : b = 0 ∨ b = 1 ∨ b = 2)
    (hne : I ≠ []) (hI : IsSet I) (hle : ∀ a ∈ I, a ≤ 0) (hle0 : b = 0 → ∀ a ∈ I, a ≤ -1) :
    (∀ a ∈ I, I.head hne ≤ a) ∧
    (∀ r ∈ exclusionSet I b, 1 ≤ r ∧ r ≤ b - 2 * I.head hne) ∧
    (∀ r ∈ exclusionSet I b, r ∈ generateRemovingRange b (I.head hne) []) ∧
    (exclusionSet I b).length ≤ (generateRemovingRange b (I.head hne) []).length ∧
    (setMinus (generateRemovingRange b (I.head hne) []) (exclusionSet I b) []).length =
      (generateRemovingRange b (I.head hne) []).length - (exclusionSet I b).length := by
  have hbd := exclusionSet_bounds I b hb hne hI hle hle0
  have hsubset : (exclusionSet I b).toFinset ⊆ Finset.Icc (1 : Int) (b - 2 * I.head hne) := by
    intro r hr
    rw [List.mem_toFinset] at hr
    rw [Finset.mem_Icc]
    exact hbd r hr
  have hR : (exclusionSet I b).length = (exclusionSet I b).toFinset.card :=
    (List.toFinset_card_of_nodup (isSet_nodup (isSet_exclusionSet I b))).symm
  refine ⟨head_le I hne hI, hbd, ?_, ?_, ?_⟩
  · intro r hr
    rw [mem_generateRemovingRange]
    exact Or.inr (hbd r hr)
  · rw [generateRemovingRange_length, hR]
    exact Finset.card_le_card hsubset
  · rw [setMinus_length, generateRemovingRange_length, hR, Finset.card_sdiff hsubset]

theorem exclusionSet_subset_range_witness :
    (((1 : Int) = 0 ∨ (1 : Int) = 1 ∨ (1 : Int) = 2) ∧ IsSet [-4, -2] ∧
      (∀ a ∈ ([-4, -2] : SI), a ≤ 0) ∧ ((1 : Int) = 0 → ∀ a ∈ ([-4, -2] : SI), a ≤ -1)) ∧
    ((∀ a ∈ ([-4, -2] : SI), ([-4, -2] : SI).head (by decide) ≤ a) ∧
    (∀ r ∈ exclusionSet [-4, -2] 1, 1 ≤ r ∧ r ≤ 1 - 2 * ([-4, -2] : SI).head (by decide)) ∧
    (∀ r ∈ exclusionSet [-4, -2] 1,
      r ∈ generateRemovingRange 1 (([-4, -2] : SI).head (by decide)) []) ∧
    (exclusionSet [-4, -2] 1).length
      ≤ (generateRemovingRange 1 (([-4, -2] : SI).head (by decide)) []).length ∧
    (setMinus (generateRemovingRange 1 (([-4, -2] : SI).head (by decide)) [])
        (exclusionSet [-4, -2] 1) []).length =
      (generateRemovingRange 1 (([-4, -2] : SI).head (by decide)) []).length
        - (exclusionSet [-4, -2] 1).length) :=
  ⟨by decide, exclusionSet_subset_range [-4, -2] 1 (by decide) (by decide) (by decide)
    (by decide) (by decide)⟩

theorem mem_pairList (I : SI) (b : Int) (R : SI) (hI : IsSet I) (q : P) :
    q ∈ pairList I b R ↔
      ∃ a ∈ I, 1 ≤ q.1 ∧ q.1 < q.2 ∧ q.1 + q.2 = b - a ∧ q.1 ∉ R ∧ q.2 ∉ R := by
  obtain ⟨new, heq, hmem, -⟩ := pairList_loop_spec b R I [] hI
  have hl : pairList I b R = new := by
    unfold pairList; rw [heq]; rfl
  rw [hl]
  exact hmem q

/-- C20: for an integer `b` and a non-empty set `I` of integers that are all `≤ 0`, both
members of every pair of the pair list built by `updateCount` belong to the complement
`R_c = X_n \ R`; so `isValidFixation(pairs, R_c)` is true: the full complement is a fixation
that hits every pair. -/
theorem pairs_in_complement (I : SI) (b : Int) (hne : I ≠ []) (hI : IsSet I)
    (hle : ∀ a ∈ I, a ≤ 0) :
    (∀ pr ∈ pairList I b (exclusionSet I b),
      pr.1 ∈ setMinus (generateRemovingRange b (I.head hne) []) (exclusionSet I b) [] ∧
      pr.2 ∈ setMinus (generateRemovingRange b (I.head hne) []) (exclusionSet I b) []) ∧
    isValidFixation (pairList I b (exclusionSet I b))
      (setMinus (generateRemovingRange b (I.head hne) []) (exclusionSet I b) []) = true := by
  have hmin := head_le I hne hI
  have hm0 : I.head hne ≤ 0 := hle _ (List.head_mem hne)
  have hin : ∀ pr ∈ pairList I b (exclusionSet I b),
      pr.1 ∈ setMinus (generateRemovingRange b (I.head hne) []) (exclusionSet I b) [] ∧
      pr.2 ∈ setMinus (generateRemovingRange b (I.head hne) []) (exclusionSet I b) [] := by
    intro pr hpr
    obtain ⟨a, ha, h1, h2, h3, h4, h5⟩ := (mem_pairList I b _ hI pr).1 hpr
    have h6 := hmin a ha
    rw [mem_setMinus, mem_setMinus, mem_generateRemovingRange, mem_generateRemovingRange]
    exact ⟨Or.inr ⟨Or.inr ⟨h1, by omega⟩, h4⟩, Or.inr ⟨Or.inr ⟨by omega, by omega⟩, h5⟩⟩
  refine ⟨hin, ?_⟩
  rw [isValidFixation_iff]
  intro pr hpr
  exact Or.inl (hin pr hpr).1

theorem pairs_in_complement_witness :
    (IsSet [-4, -2] ∧ ∀ a ∈ ([-4, -2] : SI), a ≤ 0) ∧
    pairList [-4, -2] 1 (exclusionSet [-4, -2] 1) = [(1, 4), (2, 3), (1, 2)] ∧
    setMinus (generateRemovingRange 1 (([-4, -2] : SI).head (by decide)) [])
      (exclusionSet [-4, -2] 1) [] = [1, 2, 3, 4, 6, 8] ∧
    ((∀ pr ∈ pairList [-4, -2] 1 (exclusionSet [-4, -2] 1),
      pr.1 ∈ setMinus (generateRemovingRange 1 (([-4, -2] : SI).head (by decide)) [])
        (exclusionSet [-4, -2] 1) [] ∧
      pr.2 ∈ setMinus (generateRemovingRange 1 (([-4, -2] : SI).head (by decide)) [])
        (exclusionSet [-4, -2] 1) []) ∧
    isValidFixation (pairList [-4, -2] 1 (exclusionSet [-4, -2] 1))
      (setMinus (generateRemovingRange 1 (([-4, -2] : SI).head (by decide)) [])
        (exclusionSet [-4, -2] 1) []) = true) :=
  ⟨by decide, by decide, by decide,
    pairs_in_complement [-4, -2] 1 (by decide) (by decide) (by decide)⟩

end Rnsg
